import Mathlib

/-!
Verification of the local-synk task scheduler and synchronization engine
(`src/main.py`) against its specification.

The development shallowly embeds the program:

* the filesystem is a finite association list of file paths to file data
  (modification time, permission bits, content) together with a list of
  directories; paths are lists of name components;
* the copy-if-newer step of `_sync_file` / `_sync_directory` becomes a pure
  state-transforming function `syncStep`; per-file exceptions are modelled by
  an `err` field on the source file's data (raised when the copy is attempted,
  as an unreadable file raises from `shutil.copy2`);
* the task store (`load_tasks` / `save_tasks` / `add_task` / `remove_task` /
  `update_task`) and the scheduler (`run_task`, `_run_one_time_task`,
  `_run_repeat_task`, `load_and_start_tasks`) become functions over a `World`
  carrying the persisted document, the uuid supply, the active-id set and the
  current clock (naive local datetimes are represented by seconds counts,
  which is faithful to Python naive-`datetime` ordering and arithmetic);
* the one unbounded loop (`_run_repeat_task`) is modelled by its loop body,
  one execution cycle.
-/

namespace Synk

/-- A filesystem path, as its list of name components. -/
abbrev FPath := List String

/-- Boolean membership for lists over a type with decidable equality. -/
def memB {α : Type} [DecidableEq α] (a : α) : List α → Bool
  | [] => false
  | b :: r => if a = b then true else memB a r

/-- Boolean test that the first path is an initial segment of the second
(the first path is the second or an ancestor of it). -/
def isUnder : FPath → FPath → Bool
  | [], _ => true
  | _ :: _, [] => false
  | a :: r, b :: q => if a = b then isUnder r q else false

/-- Boolean test that the first path is a strict ancestor of the second. -/
def strictUnder (root q : FPath) : Bool :=
  isUnder root q && decide (root.length < q.length)

/-- All initial segments of a path, the empty path and the path included:
the directories `mkdir(parents=True)` ensures exist. -/
def segsOf : FPath → List FPath
  | [] => [[]]
  | a :: r => [] :: (segsOf r).map (fun s => a :: s)

/-- The base name of a path: `Path.name` in `pathlib`. -/
def lastName (p : FPath) : String := p.getLastD ""

/-- The path of `item` relative to `root` (defined when `root` is an initial
segment of `item`): `item.relative_to(source)`. -/
def relTo (item root : FPath) : FPath := item.drop root.length

/-- Rendering of a relative path as the string that appears in error
messages (path components joined by a separator). -/
def pathStr : FPath → String
  | [] => ""
  | [a] => a
  | a :: r => a ++ "/" ++ pathStr r

/-- The failure a source file raises when a copy of it is attempted:
`PermissionError`, or any other exception with its description. -/
inductive SyncErr where
  | permission
  | other (msg : String)
deriving DecidableEq

/-- Data of one regular file: modification time (`st_mtime`, in seconds),
permission bits, content, and the exception reading it raises, if any. -/
structure FileData where
  mtime : Nat
  perm : Nat
  content : Nat
  err : Option SyncErr
deriving DecidableEq

/-- Lookup in an association list of files (first match). -/
def lookupF : List (FPath × FileData) → FPath → Option FileData
  | [], _ => none
  | (q, d) :: rest, p => if q = p then some d else lookupF rest p

/-- Insert or overwrite one file in an association list of files: the first
binding of the key is replaced in place, a new key is appended at the end. -/
def insertF : List (FPath × FileData) → FPath → FileData → List (FPath × FileData)
  | [], p, d => [(p, d)]
  | (q, e) :: rest, p, d =>
      if q = p then (p, d) :: rest else (q, e) :: insertF rest p d

/-- A filesystem: finitely many regular files and explicitly created
directories (a directory also exists implicitly as the ancestor of a file). -/
structure FS where
  files : List (FPath × FileData)
  dirs : List FPath
deriving DecidableEq

/-- Whether a directory entry exists at `p`: explicitly created, or an
ancestor of some regular file. -/
def FS.hasDirAt (fs : FS) (p : FPath) : Bool :=
  memB p fs.dirs || fs.files.any (fun e => strictUnder p e.1)

/-- Whether a regular file exists at `p`. -/
def FS.isFileAt (fs : FS) (p : FPath) : Bool :=
  (lookupF fs.files p).isSome

/-- `Path.exists()`: a file or a directory entry is present at `p`. -/
def FS.existsAt (fs : FS) (p : FPath) : Bool :=
  fs.isFileAt p || fs.hasDirAt p

/-- `stat().st_mtime` of the entry at `p`, as used by the copy comparison
(defined for regular files; `0` when no file is present). -/
def FS.mtimeAt (fs : FS) (p : FPath) : Nat :=
  match lookupF fs.files p with
  | some d => d.mtime
  | none => 0

/-- `p.mkdir(parents=True, exist_ok=True)`: `p` and all its ancestors become
directories. -/
def FS.mkdirParents (fs : FS) (p : FPath) : FS :=
  { fs with dirs := fs.dirs ++ segsOf p }

/-- `source.rglob('*')` filtered by `is_file()`: the paths of all regular
files strictly below `root`, in storage order.  When `root` is not a
directory `pathlib`'s selector returns an empty iterator (its `is_dir` guard),
so enumeration of a missing source yields no entries; that agrees with this
definition, since any file strictly below `root` makes `root` a directory. -/
def FS.rglobFiles (fs : FS) (root : FPath) : List FPath :=
  (fs.files.map (fun e => e.1)).filter (fun q => strictUnder root q)

/-- State of one `sync_files` invocation: the filesystem plus the counters
and error list reset at the start of the call. -/
structure SyncSt where
  fs : FS
  copied : Nat
  skipped : Nat
  errors : Nat
  errorFiles : List String
deriving DecidableEq

/-- One per-file copy-if-newer step, the shared body of `_sync_file` and of
the per-item block of `_sync_directory`: if the destination entry is absent
or the source's modification time is strictly greater, create the
destination's parent directories and copy (`shutil.copy2`, duplicating
content, modification time and permission bits); otherwise count the file as
skipped.  A `PermissionError` raised by the copy is recorded as
`label ++ " (Access denied)"`, any other exception as `label` with its
description; either way only the error counters change (the parent
directories were already created).  `label` is `source.name` for a
single-file sync and the relative path string for a directory item. -/
def syncStep (label : String) (src dst : FPath) (st : SyncSt) : SyncSt :=
  match lookupF st.fs.files src with
  | none => st
  | some sd =>
    if !(st.fs.existsAt dst) || decide (sd.mtime > st.fs.mtimeAt dst) then
      let fs1 := st.fs.mkdirParents dst.dropLast
      match sd.err with
      | none =>
          { st with
              fs := { fs1 with files := insertF fs1.files dst sd },
              copied := st.copied + 1 }
      | some SyncErr.permission =>
          { st with
              fs := fs1,
              errors := st.errors + 1,
              errorFiles := st.errorFiles ++ [label ++ " (Access denied)"] }
      | some (SyncErr.other m) =>
          { st with
              fs := fs1,
              errors := st.errors + 1,
              errorFiles := st.errorFiles ++ [label ++ " (" ++ m ++ ")"] }
    else
      { st with skipped := st.skipped + 1 }

/-- The enumeration loop of `_sync_directory`: apply `syncStep` to each
enumerated file, mirroring its path relative to `src` under `dstRoot`. -/
def syncDirLoop (src dstRoot : FPath) : List FPath → SyncSt → SyncSt
  | [], st => st
  | item :: rest, st =>
      syncDirLoop src dstRoot rest
        (syncStep (pathStr (relTo item src)) item (dstRoot ++ relTo item src) st)

/-- `_sync_directory(source, dest)`: create `dest` (with parents), then run
the per-file loop over the files enumerated under `source`. -/
def syncDirectory (src dst : FPath) (st : SyncSt) : SyncSt :=
  let st1 : SyncSt := { st with fs := st.fs.mkdirParents dst }
  syncDirLoop src dst (st1.fs.rglobFiles src) st1

/-- Result of one `sync_files` call: the final state, and whether the
batch-level `except` handler of `sync_files` fired.  In the model the body of
the `try` is total — directory creation always succeeds and enumeration of a
missing source is empty (see `FS.rglobFiles`) — so the handler never fires. -/
structure SyncOutcome where
  st : SyncSt
  failed : Bool
deriving DecidableEq

/-- `sync_files(source_path, dest_path)`: reset the counters, then sync the
single file `source` to `dest/source.name` when `source` is a regular file,
and otherwise run the directory sync into `dest/source.name`. -/
def sync_files (fs : FS) (srcp dstp : FPath) : SyncOutcome :=
  let st0 : SyncSt :=
    { fs := fs, copied := 0, skipped := 0, errors := 0, errorFiles := [] }
  if fs.isFileAt srcp then
    { st := syncStep (lastName srcp) srcp (dstp ++ [lastName srcp]) st0,
      failed := false }
  else
    { st := syncDirectory srcp (dstp ++ [lastName srcp]) st0, failed := false }

/-! ### Basic lemmas on paths and the file map -/

theorem memB_iff {α : Type} [DecidableEq α] (a : α) (l : List α) :
    memB a l = true ↔ a ∈ l := by
  induction l with
  | nil => simp [memB]
  | cons b r ih =>
      simp only [memB]
      by_cases h : a = b <;> simp [h, ih]

theorem memB_append_left {α : Type} [DecidableEq α] (a : α) (l r : List α)
    (h : memB a l = true) : memB a (l ++ r) = true := by
  rw [memB_iff] at h ⊢
  exact List.mem_append_left r h

theorem isUnder_refl (p : FPath) : isUnder p p = true := by
  induction p with
  | nil => rfl
  | cons a r ih => simp [isUnder, ih]

theorem isUnder_append (p r : FPath) : isUnder p (p ++ r) = true := by
  induction p with
  | nil => rfl
  | cons a q ih => simp [isUnder, ih]

theorem isUnder_length {p q : FPath} (h : isUnder p q = true) :
    p.length ≤ q.length := by
  induction p generalizing q with
  | nil => simp
  | cons a r ih =>
      cases q with
      | nil => simp [isUnder] at h
      | cons b s =>
          simp only [isUnder] at h
          split at h
          · simpa using ih h
          · exact absurd h (by simp)

theorem isUnder_recompose {root q : FPath} (h : isUnder root q = true) :
    root ++ relTo q root = q := by
  induction root generalizing q with
  | nil => simp [relTo]
  | cons a r ih =>
      cases q with
      | nil => simp [isUnder] at h
      | cons b s =>
          simp only [isUnder] at h
          split at h
          · rename_i hab
            subst hab
            simpa [relTo] using ih h
          · exact absurd h (by simp)

theorem isUnder_comparable {a b c : FPath}
    (ha : isUnder a c = true) (hb : isUnder b c = true) :
    isUnder a b = true ∨ isUnder b a = true := by
  induction c generalizing a b with
  | nil =>
      cases a with
      | nil => left; exact rfl
      | cons x r => simp [isUnder] at ha
  | cons x s ih =>
      cases a with
      | nil => left; exact rfl
      | cons y r =>
          cases b with
          | nil => right; rfl
          | cons z t =>
              simp only [isUnder] at ha hb
              split at ha
              · split at hb
                · rename_i h1 h2
                  subst h1; subst h2
                  simpa [isUnder] using ih ha hb
                · exact absurd hb (by simp)
              · exact absurd ha (by simp)

theorem strictUnder_isUnder {p q : FPath} (h : strictUnder p q = true) :
    isUnder p q = true := by
  simp only [strictUnder, Bool.and_eq_true] at h
  exact h.1

theorem isUnder_trans {a b c : FPath}
    (h1 : isUnder a b = true) (h2 : isUnder b c = true) :
    isUnder a c = true := by
  have e1 := isUnder_recompose h1
  have e2 := isUnder_recompose h2
  rw [← e2, ← e1, List.append_assoc]
  exact isUnder_append _ _

theorem memB_segsOf (q p : FPath) : memB q (segsOf p) = isUnder q p := by
  induction p generalizing q with
  | nil =>
      cases q with
      | nil => rfl
      | cons a r => rfl
  | cons a r ih =>
      cases q with
      | nil => rfl
      | cons b s =>
          simp only [segsOf, memB, isUnder]
          by_cases h : b = a
          · subst h
            have : ((b :: s : FPath) = ([] : FPath)) = False := by simp
            rw [if_neg (by simp)]
            -- membership in the mapped tail
            have hmap : memB (b :: s) ((segsOf r).map (fun t => b :: t)) =
                memB s (segsOf r) := by
              induction (segsOf r) with
              | nil => rfl
              | cons t ts iht =>
                  simp only [List.map, memB]
                  by_cases hst : s = t
                  · subst hst; simp
                  · rw [if_neg (by simpa using hst), if_neg hst, iht]
            rw [hmap, ih, if_pos rfl]
          · rw [if_neg (by simp [h]), if_neg (by exact h)]
            have hmap : memB (b :: s) ((segsOf r).map (fun t => a :: t)) = false := by
              induction (segsOf r) with
              | nil => rfl
              | cons t ts iht =>
                  simp only [List.map, memB]
                  rw [if_neg (by simp [h]), iht]
            rw [hmap]

theorem lookupF_insertF (l : List (FPath × FileData)) (p q : FPath) (d : FileData) :
    lookupF (insertF l p d) q = if p = q then some d else lookupF l q := by
  induction l with
  | nil =>
      simp only [insertF, lookupF]
  | cons e rest ih =>
      obtain ⟨k, v⟩ := e
      by_cases hkp : k = p
      · subst hkp
        by_cases hkq : k = q
        · subst hkq; simp [insertF, lookupF]
        · simp [insertF, lookupF, hkq]
      · by_cases hkq : k = q
        · subst hkq
          have hpk : ¬ p = k := fun h => hkp h.symm
          simp [insertF, lookupF, hkp, hpk]
        · simp [insertF, lookupF, hkp, hkq, ih]

theorem lookupF_isSome_of_mem_keys {l : List (FPath × FileData)} {q : FPath}
    (h : q ∈ l.map (fun e => e.1)) : (lookupF l q).isSome := by
  induction l with
  | nil => simp at h
  | cons e rest ih =>
      simp only [List.map, List.mem_cons] at h
      simp only [lookupF]
      by_cases he : e.1 = q
      · rw [if_pos he]; rfl
      · rw [if_neg he]
        exact ih (h.resolve_left (fun hh => he hh.symm))

theorem filter_keys_insertF (l : List (FPath × FileData)) (p : FPath) (d : FileData)
    (f : FPath → Bool) (hp : f p = false) :
    ((insertF l p d).map (fun e => e.1)).filter f =
    (l.map (fun e => e.1)).filter f := by
  induction l with
  | nil => simp [insertF, hp]
  | cons e rest ih =>
      obtain ⟨k, v⟩ := e
      simp only [insertF]
      by_cases hkp : k = p
      · subst hkp
        simp [List.filter, hp]
      · rw [if_neg hkp]
        simp only [List.map, List.filter]
        cases hf : f k <;> simp [hf, ih]

theorem any_keys_insertF_of_any (l : List (FPath × FileData)) (p : FPath)
    (d : FileData) (f : FPath → Bool) (h : l.any (fun e => f e.1) = true) :
    (insertF l p d).any (fun e => f e.1) = true := by
  induction l with
  | nil => simp at h
  | cons e rest ih =>
      obtain ⟨k, v⟩ := e
      by_cases hkp : k = p
      · subst hkp
        simp only [List.any_cons, Bool.or_eq_true] at h
        simp only [insertF, if_pos rfl, if_true, List.any_cons, Bool.or_eq_true]
        exact h
      · simp only [insertF, if_neg hkp, List.any_cons, Bool.or_eq_true] at h ⊢
        rcases h with h | h
        · exact Or.inl h
        · exact Or.inr (ih h)

/-! ### Case lemmas for one sync step -/

theorem syncStep_none {s : FPath} {st : SyncSt} (label : String) (d : FPath)
    (hs : lookupF st.fs.files s = none) :
    syncStep label s d st = st := by
  simp [syncStep, hs]

theorem syncStep_copy {s : FPath} {st : SyncSt} {sd : FileData}
    (label : String) (d : FPath)
    (hs : lookupF st.fs.files s = some sd) (he : sd.err = none)
    (hc : (!(st.fs.existsAt d) || decide (sd.mtime > st.fs.mtimeAt d)) = true) :
    syncStep label s d st =
      { st with
          fs := { st.fs.mkdirParents d.dropLast with
                    files := insertF (st.fs.mkdirParents d.dropLast).files d sd },
          copied := st.copied + 1 } := by
  simp [syncStep, hs, hc, he]

theorem syncStep_skip {s : FPath} {st : SyncSt} {sd : FileData}
    (label : String) (d : FPath)
    (hs : lookupF st.fs.files s = some sd)
    (hc : (!(st.fs.existsAt d) || decide (sd.mtime > st.fs.mtimeAt d)) = false) :
    syncStep label s d st = { st with skipped := st.skipped + 1 } := by
  simp [syncStep, hs, hc]

theorem syncStep_perm {s : FPath} {st : SyncSt} {sd : FileData}
    (label : String) (d : FPath)
    (hs : lookupF st.fs.files s = some sd) (he : sd.err = some SyncErr.permission)
    (hc : (!(st.fs.existsAt d) || decide (sd.mtime > st.fs.mtimeAt d)) = true) :
    syncStep label s d st =
      { st with
          fs := st.fs.mkdirParents d.dropLast,
          errors := st.errors + 1,
          errorFiles := st.errorFiles ++ [label ++ " (Access denied)"] } := by
  simp [syncStep, hs, hc, he]

theorem syncStep_other {s : FPath} {st : SyncSt} {sd : FileData} {m : String}
    (label : String) (d : FPath)
    (hs : lookupF st.fs.files s = some sd) (he : sd.err = some (SyncErr.other m))
    (hc : (!(st.fs.existsAt d) || decide (sd.mtime > st.fs.mtimeAt d)) = true) :
    syncStep label s d st =
      { st with
          fs := st.fs.mkdirParents d.dropLast,
          errors := st.errors + 1,
          errorFiles := st.errorFiles ++ [label ++ " (" ++ m ++ ")"] } := by
  simp [syncStep, hs, hc, he]

/-- Every step either leaves the file map unchanged or inserts, at its
destination path, the data currently stored at its source path (this is the
only way `syncStep` touches `files`); directories only ever grow. -/
theorem syncStep_shape (label : String) (s d : FPath) (st : SyncSt) :
    ((syncStep label s d st).fs.files = st.fs.files ∨
      ∃ sd, lookupF st.fs.files s = some sd ∧ sd.err = none ∧
        (syncStep label s d st).fs.files = insertF st.fs.files d sd) ∧
    (∃ ds, (syncStep label s d st).fs.dirs = st.fs.dirs ++ ds) := by
  cases hs : lookupF st.fs.files s with
  | none =>
      rw [syncStep_none label d hs]
      exact ⟨Or.inl rfl, ⟨[], by simp⟩⟩
  | some sd =>
      by_cases hc : (!(st.fs.existsAt d) || decide (sd.mtime > st.fs.mtimeAt d)) = true
      · cases he : sd.err with
        | none =>
            rw [syncStep_copy label d hs he hc]
            exact ⟨Or.inr ⟨sd, rfl, he, rfl⟩, ⟨segsOf d.dropLast, rfl⟩⟩
        | some e =>
            cases e with
            | permission =>
                rw [syncStep_perm label d hs he hc]
                exact ⟨Or.inl rfl, ⟨segsOf d.dropLast, rfl⟩⟩
            | other m =>
                rw [syncStep_other label d hs he hc]
                exact ⟨Or.inl rfl, ⟨segsOf d.dropLast, rfl⟩⟩
      · rw [syncStep_skip label d hs (by simpa using hc)]
        exact ⟨Or.inl rfl, ⟨[], by simp⟩⟩

theorem syncStep_lookup_ne (label : String) (s d q : FPath) (st : SyncSt)
    (h : ¬ d = q) :
    lookupF (syncStep label s d st).fs.files q = lookupF st.fs.files q := by
  rcases (syncStep_shape label s d st).1 with hf | ⟨sd, _, _, hf⟩
  · rw [hf]
  · rw [hf, lookupF_insertF, if_neg h]

theorem syncStep_mtimeAt_ne (label : String) (s d q : FPath) (st : SyncSt)
    (h : ¬ d = q) :
    (syncStep label s d st).fs.mtimeAt q = st.fs.mtimeAt q := by
  unfold FS.mtimeAt
  rw [syncStep_lookup_ne label s d q st h]

theorem syncStep_isFileAt_mono (label : String) (s d q : FPath) (st : SyncSt)
    (h : st.fs.isFileAt q = true) :
    (syncStep label s d st).fs.isFileAt q = true := by
  unfold FS.isFileAt at h ⊢
  rcases (syncStep_shape label s d st).1 with hf | ⟨sd, _, _, hf⟩
  · rw [hf]; exact h
  · rw [hf, lookupF_insertF]
    by_cases hdq : d = q
    · rw [if_pos hdq]; rfl
    · rw [if_neg hdq]; exact h

theorem syncStep_hasDirAt_mono (label : String) (s d q : FPath) (st : SyncSt)
    (h : st.fs.hasDirAt q = true) :
    (syncStep label s d st).fs.hasDirAt q = true := by
  unfold FS.hasDirAt at h ⊢
  obtain ⟨hfiles, ds, hdirs⟩ := syncStep_shape label s d st
  rw [Bool.or_eq_true] at h
  rcases h with h | h
  · rw [Bool.or_eq_true]
    exact Or.inl (by rw [hdirs]; exact memB_append_left _ _ _ h)
  · rw [Bool.or_eq_true]
    right
    rcases hfiles with hf | ⟨sd, _, _, hf⟩
    · rw [hf]; exact h
    · rw [hf]; exact any_keys_insertF_of_any _ _ _ _ h

theorem syncStep_existsAt_mono (label : String) (s d q : FPath) (st : SyncSt)
    (h : st.fs.existsAt q = true) :
    (syncStep label s d st).fs.existsAt q = true := by
  unfold FS.existsAt at h ⊢
  rw [Bool.or_eq_true] at h ⊢
  rcases h with h | h
  · exact Or.inl (syncStep_isFileAt_mono label s d q st h)
  · exact Or.inr (syncStep_hasDirAt_mono label s d q st h)

theorem syncStep_rglob_preserved (label : String) (s d root : FPath) (st : SyncSt)
    (h : strictUnder root d = false) :
    (syncStep label s d st).fs.rglobFiles root = st.fs.rglobFiles root := by
  unfold FS.rglobFiles
  rcases (syncStep_shape label s d st).1 with hf | ⟨sd, _, _, hf⟩
  · rw [hf]
  · rw [hf, filter_keys_insertF _ _ _ _ h]

theorem memB_append_right {α : Type} [DecidableEq α] (a : α) (l r : List α)
    (h : memB a r = true) : memB a (l ++ r) = true := by
  rw [memB_iff] at h ⊢
  exact List.mem_append_right l h

theorem syncDirLoop_hasDirAt_mono (src dstRoot : FPath) (items : List FPath)
    (st : SyncSt) (q : FPath) (h : st.fs.hasDirAt q = true) :
    (syncDirLoop src dstRoot items st).fs.hasDirAt q = true := by
  induction items generalizing st with
  | nil => exact h
  | cons i rest ih =>
      exact ih _ (syncStep_hasDirAt_mono _ _ _ _ _ h)

theorem rglob_nil_of_not_dir (fs : FS) (root : FPath)
    (h : fs.hasDirAt root = false) : fs.rglobFiles root = [] := by
  unfold FS.hasDirAt at h
  have hany : fs.files.any (fun e => strictUnder root e.1) = false := by
    revert h
    cases memB root fs.dirs <;> cases fs.files.any (fun e => strictUnder root e.1) <;>
      simp
  unfold FS.rglobFiles
  rw [List.filter_eq_nil_iff]
  intro a ha
  rw [List.mem_map] at ha
  obtain ⟨e, he, rfl⟩ := ha
  rw [List.any_eq_false] at hany
  simpa using hany e he

/-- C1.  Per-file copy-if-newer semantics of `_sync_file` and of the per-item
block of `_sync_directory` (their shared body `syncStep`), for a readable
source file and a destination path that is not a directory: the file is
copied to the destination exactly when the destination entry is absent or the
source's modification time is strictly greater than the destination's, it is
counted as skipped otherwise, a copy installs the source's data (content,
modification time, permission bits) at the destination, a destination with
modification time greater than or equal to the source's is never copied
(the step is then exactly a skip), and no error is recorded. -/
theorem C1_per_file_copy_iff_newer (label : String) (src dst : FPath)
    (st : SyncSt) (sd : FileData)
    (hs : lookupF st.fs.files src = some sd) (herr : sd.err = none)
    (hnd : st.fs.hasDirAt dst = false) :
    ((syncStep label src dst st).copied = st.copied + 1 ↔
      (lookupF st.fs.files dst = none ∨ st.fs.mtimeAt dst < sd.mtime)) ∧
    ((syncStep label src dst st).skipped = st.skipped + 1 ↔
      ¬ (lookupF st.fs.files dst = none ∨ st.fs.mtimeAt dst < sd.mtime)) ∧
    ((lookupF st.fs.files dst = none ∨ st.fs.mtimeAt dst < sd.mtime) →
      lookupF (syncStep label src dst st).fs.files dst = some sd) ∧
    (∀ dd, lookupF st.fs.files dst = some dd → sd.mtime ≤ dd.mtime →
      syncStep label src dst st = { st with skipped := st.skipped + 1 }) ∧
    (syncStep label src dst st).errors = st.errors := by
  have hex : st.fs.existsAt dst = st.fs.isFileAt dst := by
    unfold FS.existsAt
    rw [hnd, Bool.or_false]
  obtain hd | ⟨dd, hd⟩ := Option.eq_none_or_eq_some (lookupF st.fs.files dst)
  · have hc : (!(st.fs.existsAt dst) || decide (sd.mtime > st.fs.mtimeAt dst))
        = true := by
      rw [hex]
      unfold FS.isFileAt
      rw [hd]
      rfl
    rw [syncStep_copy label dst hs herr hc]
    refine ⟨Iff.intro (fun _ => Or.inl hd) (fun _ => rfl), ?_, ?_, ?_, by simp⟩
    · constructor
      · intro hcontr
        exact absurd hcontr (by simp)
      · intro hcontr
        exact absurd (Or.inl hd) hcontr
    · intro _
      show lookupF (insertF _ dst sd) dst = some sd
      rw [lookupF_insertF]
      simp
    · intro dd hdd
      rw [hd] at hdd
      exact absurd hdd (by simp)
  · have hmt : st.fs.mtimeAt dst = dd.mtime := by
      unfold FS.mtimeAt
      rw [hd]
    by_cases hgt : dd.mtime < sd.mtime
    · have hc : (!(st.fs.existsAt dst) || decide (sd.mtime > st.fs.mtimeAt dst))
          = true := by
        rw [hmt]
        simp [hgt]
      rw [syncStep_copy label dst hs herr hc]
      refine ⟨Iff.intro (fun _ => Or.inr (by rw [hmt]; exact hgt)) (fun _ => rfl),
        ?_, ?_, ?_, by simp⟩
      · constructor
        · intro hcontr
          exact absurd hcontr (by simp)
        · intro hcontr
          exact absurd (Or.inr (by rw [hmt]; exact hgt)) hcontr
      · intro _
        show lookupF (insertF _ dst sd) dst = some sd
        rw [lookupF_insertF]
        simp
      · intro dd' hdd' hle
        rw [hd] at hdd'
        cases hdd'
        omega
    · have hc : (!(st.fs.existsAt dst) || decide (sd.mtime > st.fs.mtimeAt dst))
          = false := by
        rw [hex, hmt]
        unfold FS.isFileAt
        rw [hd]
        simp [hgt]
      rw [syncStep_skip label dst hs hc]
      refine ⟨?_, ?_, ?_, ?_, by simp⟩
      · constructor
        · intro hcontr
          exact absurd hcontr (by simp)
        · intro hcontr
          rcases hcontr with h1 | h2
          · rw [hd] at h1; cases h1
          · rw [hmt] at h2; omega
      · constructor
        · intro _
          intro hcontr
          rcases hcontr with h1 | h2
          · rw [hd] at h1; cases h1
          · rw [hmt] at h2; omega
        · intro _; rfl
      · intro hcontr
        rcases hcontr with h1 | h2
        · rw [hd] at h1; cases h1
        · rw [hmt] at h2; omega
      · intro _ _ _; rfl

def c1fs : FS :=
  { files := [(["f"], ⟨5, 6, 1, none⟩), (["d", "f"], ⟨9, 6, 0, none⟩)],
    dirs := [["d"]] }

def c1st : SyncSt :=
  { fs := c1fs, copied := 0, skipped := 0, errors := 0, errorFiles := [] }

theorem C1_witness :
    syncStep "f" ["f"] ["d", "f"] c1st = { c1st with skipped := 1 } :=
  (C1_per_file_copy_iff_newer "f" ["f"] ["d", "f"] c1st ⟨5, 6, 1, none⟩
      (by decide) rfl (by decide)).2.2.2.1 ⟨9, 6, 0, none⟩ (by decide) (by decide)

/-- C10.  Whenever the source path is not an existing regular file — in
particular when it does not exist at all — `sync_files` runs the directory
branch, whose first action creates `destination/<source-basename>` and all
its ancestors on the destination filesystem, before (and regardless of) any
file enumeration; so even a pass that copies zero files creates that
directory. -/
theorem C10_dest_dir_created (fs : FS) (srcp dstp : FPath)
    (h : fs.isFileAt srcp = false) :
    ∀ q : FPath, isUnder q (dstp ++ [lastName srcp]) = true →
      (sync_files fs srcp dstp).st.fs.hasDirAt q = true := by
  intro q hq
  simp only [sync_files, h, Bool.false_eq_true, if_false]
  unfold syncDirectory
  apply syncDirLoop_hasDirAt_mono
  unfold FS.hasDirAt
  rw [Bool.or_eq_true]
  left
  unfold FS.mkdirParents
  apply memB_append_right
  rw [memB_segsOf]
  exact hq

theorem C10_witness :
    (sync_files { files := [], dirs := [] } ["s"] ["d"]).st.fs.hasDirAt
      ["d", "s"] = true :=
  C10_dest_dir_created { files := [], dirs := [] } ["s"] ["d"] rfl
    ["d", "s"] (by decide)

/-- C8 counterexample.  For a sync whose source path does not exist, the
batch-level failure handler of `sync_files` never fires (`failed = false`):
`pathlib`'s `rglob` on a non-directory returns an empty iterator, so the call
completes as a normal zero-count pass and nothing failure-like is logged —
contradicting the claim that such a call is a batch-level failure that is
logged as such.  The observable remainder of the claim (no files processed,
zero counts, empty result, nothing raised) does hold. -/
theorem C8_counterexample :
    (({ files := [], dirs := [["d"]] } : FS).existsAt ["missing"] = false) ∧
    (sync_files { files := [], dirs := [["d"]] } ["missing"] ["d"]).failed
      = false ∧
    (sync_files { files := [], dirs := [["d"]] } ["missing"] ["d"]).st.copied
      = 0 ∧
    (sync_files { files := [], dirs := [["d"]] } ["missing"] ["d"]).st.errors
      = 0 ∧
    (sync_files { files := [], dirs := [["d"]] } ["missing"] ["d"]).st.errorFiles
      = [] := by
  decide

/-- C8 (amended).  A sync call whose source path does not exist at the start
of the pass is not routed through the batch-level failure handler: the pass
completes normally with zero copied, skipped and errored counts, an empty
error list, and nothing raised to the caller; no files are processed, and the
only filesystem effect is the creation of `destination/<source-basename>`
(with parents). -/
theorem rglob_mkdirParents (fs : FS) (p root : FPath) :
    (fs.mkdirParents p).rglobFiles root = fs.rglobFiles root := rfl

theorem C8_amended_missing_source (fs : FS) (srcp dstp : FPath)
    (h : fs.existsAt srcp = false) :
    (sync_files fs srcp dstp).failed = false ∧
    (sync_files fs srcp dstp).st.copied = 0 ∧
    (sync_files fs srcp dstp).st.skipped = 0 ∧
    (sync_files fs srcp dstp).st.errors = 0 ∧
    (sync_files fs srcp dstp).st.errorFiles = [] ∧
    (sync_files fs srcp dstp).st.fs =
      fs.mkdirParents (dstp ++ [lastName srcp]) := by
  have hor : fs.isFileAt srcp = false ∧ fs.hasDirAt srcp = false := by
    unfold FS.existsAt at h
    revert h
    cases fs.isFileAt srcp <;> cases fs.hasDirAt srcp <;> simp
  have hrg : fs.rglobFiles srcp = [] := rglob_nil_of_not_dir fs srcp hor.2
  simp only [sync_files, hor.1, Bool.false_eq_true, if_false]
  unfold syncDirectory
  simp only [rglob_mkdirParents, hrg, syncDirLoop]
  exact ⟨trivial, trivial, trivial, trivial, trivial, trivial⟩

theorem C8_amended_witness :
    (sync_files { files := [(["x"], ⟨3, 4, 0, none⟩)], dirs := [["d"]] }
        ["gone"] ["d"]).st.copied = 0 ∧
    (sync_files { files := [(["x"], ⟨3, 4, 0, none⟩)], dirs := [["d"]] }
        ["gone"] ["d"]).failed = false :=
  ⟨(C8_amended_missing_source _ ["gone"] ["d"] (by decide)).2.1,
   (C8_amended_missing_source _ ["gone"] ["d"] (by decide)).1⟩

/-! ### Counting lemmas for the directory loop -/

theorem syncStep_counts (label : String) (s d : FPath) (st : SyncSt)
    (h : st.fs.isFileAt s = true) :
    (syncStep label s d st).copied + (syncStep label s d st).skipped +
      (syncStep label s d st).errors =
    st.copied + st.skipped + st.errors + 1 := by
  unfold FS.isFileAt at h
  obtain ⟨sd, hs⟩ := Option.isSome_iff_exists.mp h
  by_cases hc : (!(st.fs.existsAt d) || decide (sd.mtime > st.fs.mtimeAt d)) = true
  · cases he : sd.err with
    | none => rw [syncStep_copy label d hs he hc]; dsimp only; omega
    | some e =>
        cases e with
        | permission => rw [syncStep_perm label d hs he hc]; dsimp only; omega
        | other m => rw [syncStep_other label d hs he hc]; dsimp only; omega
  · rw [syncStep_skip label d hs (by simpa using hc)]
    dsimp only
    omega

theorem syncStep_errlen (label : String) (s d : FPath) (st : SyncSt)
    (h : st.errors = st.errorFiles.length) :
    (syncStep label s d st).errors = (syncStep label s d st).errorFiles.length := by
  obtain hs | ⟨sd, hs⟩ := Option.eq_none_or_eq_some (lookupF st.fs.files s)
  · rw [syncStep_none label d hs]; exact h
  · by_cases hc : (!(st.fs.existsAt d) || decide (sd.mtime > st.fs.mtimeAt d)) = true
    · cases he : sd.err with
      | none => rw [syncStep_copy label d hs he hc]; exact h
      | some e =>
          cases e with
          | permission =>
              rw [syncStep_perm label d hs he hc]
              simp [h]
          | other m =>
              rw [syncStep_other label d hs he hc]
              simp [h]
    · rw [syncStep_skip label d hs (by simpa using hc)]
      exact h

theorem syncDirLoop_counts (src dstRoot : FPath) :
    ∀ (items : List FPath) (st : SyncSt),
    (∀ i ∈ items, st.fs.isFileAt i = true) →
    (syncDirLoop src dstRoot items st).copied +
      (syncDirLoop src dstRoot items st).skipped +
      (syncDirLoop src dstRoot items st).errors =
    st.copied + st.skipped + st.errors + items.length := by
  intro items
  induction items with
  | nil => intro st _; simp [syncDirLoop]
  | cons i rest ih =>
      intro st h
      simp only [syncDirLoop]
      rw [ih _ (fun j hj =>
        syncStep_isFileAt_mono _ _ _ _ _ (h j (List.mem_cons_of_mem i hj)))]
      rw [syncStep_counts _ _ _ _ (h i (List.mem_cons_self i rest))]
      simp only [List.length_cons]
      omega

theorem syncDirLoop_errlen (src dstRoot : FPath) :
    ∀ (items : List FPath) (st : SyncSt),
    st.errors = st.errorFiles.length →
    (syncDirLoop src dstRoot items st).errors =
      (syncDirLoop src dstRoot items st).errorFiles.length := by
  intro items
  induction items with
  | nil => intro st h; exact h
  | cons i rest ih =>
      intro st h
      simp only [syncDirLoop]
      exact ih _ (syncStep_errlen _ _ _ _ h)

theorem mem_rglob_isFileAt (fs : FS) (root q : FPath)
    (h : q ∈ fs.rglobFiles root) : fs.isFileAt q = true := by
  unfold FS.rglobFiles at h
  rw [List.mem_filter] at h
  unfold FS.isFileAt
  rw [lookupF_isSome_of_mem_keys h.1]

def c3fs : FS :=
  { files := [(["s", "a"], ⟨5, 6, 1, none⟩),
              (["s", "b"], ⟨5, 6, 2, some SyncErr.permission⟩),
              (["s", "c"], ⟨5, 6, 3, none⟩)],
    dirs := [["s"]] }

def c3fsOther : FS :=
  { files := [(["s", "a"], ⟨5, 6, 1, none⟩),
              (["s", "b"], ⟨5, 6, 2, some (SyncErr.other "disk full")⟩)],
    dirs := [["s"]] }

/-- C3.  Fault isolation of a directory sync: the batch never fails and
nothing is raised to the caller; every recorded failure appears in the error
list (the error count equals its length); every enumerated file is accounted
for as copied, skipped or errored, so a per-file failure does not abort the
batch and the error count equals the number of failed files.  Concretely,
for a directory of N = 3 files exactly one of which raises a permission
error, the result reports exactly 1 error — recorded under the distinct
"Access denied" category — and N − 1 = 2 successful copies; a non-permission
failure is recorded with its own description instead. -/
theorem C3_fault_isolation (fs : FS) (srcp dstp : FPath)
    (hdir : fs.isFileAt srcp = false) :
    (sync_files fs srcp dstp).failed = false ∧
    (sync_files fs srcp dstp).st.errors =
      (sync_files fs srcp dstp).st.errorFiles.length ∧
    (sync_files fs srcp dstp).st.copied + (sync_files fs srcp dstp).st.skipped +
      (sync_files fs srcp dstp).st.errors = (fs.rglobFiles srcp).length ∧
    ((sync_files c3fs ["s"] ["dst"]).st.errors = 1 ∧
      (sync_files c3fs ["s"] ["dst"]).st.errorFiles = ["b (Access denied)"] ∧
      (sync_files c3fs ["s"] ["dst"]).st.copied = 2) ∧
    (sync_files c3fsOther ["s"] ["dst"]).st.errorFiles = ["b (disk full)"] := by
  refine ⟨?_, ?_, ?_, by decide, by decide⟩
  · simp only [sync_files, hdir, Bool.false_eq_true, if_false]
  · simp only [sync_files, hdir, Bool.false_eq_true, if_false]
    unfold syncDirectory
    exact syncDirLoop_errlen _ _ _ _ rfl
  · simp only [sync_files, hdir, Bool.false_eq_true, if_false]
    unfold syncDirectory
    rw [syncDirLoop_counts _ _ _ _ (fun j hj => mem_rglob_isFileAt _ _ _ hj)]
    rw [rglob_mkdirParents]
    dsimp only
    omega

theorem C3_witness :
    (sync_files c3fs ["s"] ["dst"]).st.copied +
      (sync_files c3fs ["s"] ["dst"]).st.skipped +
      (sync_files c3fs ["s"] ["dst"]).st.errors =
    (c3fs.rglobFiles ["s"]).length :=
  (C3_fault_isolation c3fs ["s"] ["dst"] (by decide)).2.2.1

/-! ### Infrastructure for the idempotence property -/

/-- The mirrored destination path of a source item: its path relative to the
source root, replayed under the destination root. -/
def targOf (srcp dstRoot item : FPath) : FPath := dstRoot ++ relTo item srcp

/-- All file bindings at or below `root` are free of injected errors (every
such source file can be read and copied). -/
def errFreeUnder (fs : FS) (root : FPath) : Bool :=
  fs.files.all (fun e => !(isUnder root e.1) || decide (e.2.err = none))

/-- The source subtree of `fs` coincides (as a lookup function) with that of
the initial filesystem `fs0`. -/
def SrcStable (fs0 : FS) (srcp : FPath) (fs : FS) : Prop :=
  ∀ q : FPath, isUnder srcp q = true → lookupF fs.files q = lookupF fs0.files q

/-- The destination mirror of `item` is present and at least as new as the
source file (the state in which a further sync pass skips `item`). -/
def settledFor (fs0 : FS) (srcp dstRoot : FPath) (fs : FS) (item : FPath) : Prop :=
  ∀ sd, lookupF fs0.files item = some sd →
    fs.existsAt (targOf srcp dstRoot item) = true ∧
    sd.mtime ≤ fs.mtimeAt (targOf srcp dstRoot item)

theorem errFree_lookup_aux {root q : FPath} {sd : FileData} :
    ∀ l : List (FPath × FileData),
    (∀ x ∈ l, (!(isUnder root x.1) || decide (x.2.err = none)) = true) →
    isUnder root q = true → lookupF l q = some sd → sd.err = none := by
  intro l
  induction l with
  | nil => intro _ _ hl; cases hl
  | cons e rest ih =>
      intro h hq hl
      obtain ⟨k, v⟩ := e
      by_cases he : k = q
      · simp only [lookupF, if_pos he] at hl
        injection hl with hv
        rw [← hv]
        have hx := h (k, v) (List.mem_cons_self (k, v) rest)
        rw [he] at hx
        rw [hq] at hx
        simpa using hx
      · simp only [lookupF, if_neg he] at hl
        exact ih (fun x hx => h x (List.mem_cons_of_mem (k, v) hx)) hq hl

theorem errFree_lookup {fs : FS} {root q : FPath} {sd : FileData}
    (h : errFreeUnder fs root = true) (hq : isUnder root q = true)
    (hl : lookupF fs.files q = some sd) : sd.err = none := by
  unfold errFreeUnder at h
  rw [List.all_eq_true] at h
  exact errFree_lookup_aux fs.files h hq hl

theorem not_isUnder_targ (srcp dstRoot : FPath)
    (sep1 : isUnder srcp dstRoot = false) (sep2 : isUnder dstRoot srcp = false)
    (r : FPath) : isUnder srcp (dstRoot ++ r) = false := by
  by_contra hcon
  rw [Bool.not_eq_false] at hcon
  rcases isUnder_comparable hcon (isUnder_append dstRoot r) with h1 | h2
  · rw [h1] at sep1; cases sep1
  · rw [h2] at sep2; cases sep2

theorem strictUnder_false_of_isUnder_false {p q : FPath}
    (h : isUnder p q = false) : strictUnder p q = false := by
  unfold strictUnder
  rw [h]
  rfl

theorem targOf_inj (srcp dstRoot : FPath) {i j : FPath}
    (hi : isUnder srcp i = true) (hj : isUnder srcp j = true)
    (h : targOf srcp dstRoot i = targOf srcp dstRoot j) : i = j := by
  unfold targOf at h
  have h2 : relTo i srcp = relTo j srcp := by
    exact List.append_cancel_left h
  rw [← isUnder_recompose hi, ← isUnder_recompose hj, h2]

theorem targOf_self (srcp dstRoot : FPath) : targOf srcp dstRoot srcp = dstRoot := by
  unfold targOf relTo
  rw [List.drop_length, List.append_nil]

theorem skip_of_cond_false {a : Bool} {P : Prop} [Decidable P]
    (h : (!a || decide P) = false) : a = true ∧ ¬ P := by
  cases ha : a
  · rw [ha] at h; simp at h
  · refine ⟨rfl, fun hp => ?_⟩
    rw [ha] at h
    simp [hp] at h

theorem cond_false_of_skip {a : Bool} {P : Prop} [Decidable P]
    (h1 : a = true) (h2 : ¬ P) : (!a || decide P) = false := by
  rw [h1]
  simp [h2]

theorem mkdirParents_files (fs : FS) (p : FPath) :
    (fs.mkdirParents p).files = fs.files := rfl

theorem mkdirParents_dirs (fs : FS) (p : FPath) :
    (fs.mkdirParents p).dirs = fs.dirs ++ segsOf p := rfl

theorem mkdirParents_existsAt_mono (fs : FS) (p q : FPath)
    (h : fs.existsAt q = true) : (fs.mkdirParents p).existsAt q = true := by
  unfold FS.existsAt FS.isFileAt FS.hasDirAt at h ⊢
  rw [mkdirParents_files, mkdirParents_dirs]
  rw [Bool.or_eq_true] at h ⊢
  rcases h with h | h
  · exact Or.inl h
  · right
    rw [Bool.or_eq_true] at h ⊢
    rcases h with h | h
    · exact Or.inl (memB_append_left _ _ _ h)
    · exact Or.inr h

/-- One loop step leaves the source subtree's lookups untouched: the only
file-map write is at a destination path, which lies under the destination
root and hence outside the source subtree. -/
theorem step_SrcStable (fs0 : FS) (srcp : FPath) (st : SyncSt) (label : String)
    (s t : FPath) (ht : isUnder srcp t = false)
    (h : SrcStable fs0 srcp st.fs) :
    SrcStable fs0 srcp (syncStep label s t st).fs := by
  intro q hq
  have hne : ¬ t = q := by
    intro he
    rw [he, hq] at ht
    cases ht
  rw [syncStep_lookup_ne label s t q st hne]
  exact h q hq

/-- A step for item `i` leaves any already-settled item `j` with a distinct
destination path settled: the destination entry only grows. -/
theorem step_preserves_settled_ne (fs0 : FS) (srcp dstRoot : FPath)
    (st : SyncSt) (label : String) (i j : FPath)
    (hij : ¬ targOf srcp dstRoot i = targOf srcp dstRoot j)
    (h : settledFor fs0 srcp dstRoot st.fs j) :
    settledFor fs0 srcp dstRoot (syncStep label i (targOf srcp dstRoot i) st).fs
      j := by
  intro sd hsd
  obtain ⟨hex, hmt⟩ := h sd hsd
  refine ⟨syncStep_existsAt_mono _ _ _ _ _ hex, ?_⟩
  rw [syncStep_mtimeAt_ne _ _ _ _ _ hij]
  exact hmt

/-- Processing item `i` leaves it settled: a copy installs the source's data
(equal modification time) at the mirror path, and a skip certifies that the
mirror already exists with modification time at least the source's. -/
theorem step_establishes (fs0 : FS) (srcp dstRoot : FPath) (st : SyncSt)
    (label : String) (i : FPath)
    (hi : isUnder srcp i = true)
    (hstable : SrcStable fs0 srcp st.fs)
    (herr : ∀ sd, lookupF fs0.files i = some sd → sd.err = none) :
    settledFor fs0 srcp dstRoot (syncStep label i (targOf srcp dstRoot i) st).fs
      i := by
  intro sd hsd
  have hcur : lookupF st.fs.files i = some sd := by
    rw [hstable i hi]
    exact hsd
  have he : sd.err = none := herr sd hsd
  by_cases hc : (!(st.fs.existsAt (targOf srcp dstRoot i)) ||
      decide (sd.mtime > st.fs.mtimeAt (targOf srcp dstRoot i))) = true
  · rw [syncStep_copy label _ hcur he hc]
    have hl : lookupF
        (insertF (st.fs.mkdirParents (targOf srcp dstRoot i).dropLast).files
          (targOf srcp dstRoot i) sd)
        (targOf srcp dstRoot i) = some sd := by
      rw [lookupF_insertF]
      simp
    constructor
    · unfold FS.existsAt FS.isFileAt
      rw [Bool.or_eq_true]
      left
      show (lookupF (insertF _ _ sd) _).isSome = true
      rw [hl]
      rfl
    · show sd.mtime ≤ FS.mtimeAt _ _
      unfold FS.mtimeAt
      rw [hl]
  · have hc2 : st.fs.existsAt (targOf srcp dstRoot i) = true ∧
        sd.mtime ≤ st.fs.mtimeAt (targOf srcp dstRoot i) := by
      simpa using hc
    rw [syncStep_skip label _ hcur (Bool.eq_false_iff.mpr hc)]
    exact ⟨hc2.1, hc2.2⟩

/-- After one pass of the directory loop: the source subtree is untouched,
items that were already settled stay settled, and every processed item is
settled (its mirror exists with modification time at least the source's). -/
theorem syncDirLoop_run1 (fs0 : FS) (srcp dstRoot : FPath)
    (sep1 : isUnder srcp dstRoot = false) (sep2 : isUnder dstRoot srcp = false) :
    ∀ (items : List FPath) (st : SyncSt),
    SrcStable fs0 srcp st.fs →
    (∀ i ∈ items, isUnder srcp i = true ∧
      (∀ sd, lookupF fs0.files i = some sd → sd.err = none)) →
    SrcStable fs0 srcp (syncDirLoop srcp dstRoot items st).fs ∧
    (∀ j, isUnder srcp j = true →
      settledFor fs0 srcp dstRoot st.fs j →
      settledFor fs0 srcp dstRoot (syncDirLoop srcp dstRoot items st).fs j) ∧
    (∀ i ∈ items, settledFor fs0 srcp dstRoot (syncDirLoop srcp dstRoot items st).fs i) := by
  intro items
  induction items with
  | nil =>
      intro st hst _
      exact ⟨hst, fun _ _ h => h, fun i hi => absurd hi (List.not_mem_nil i)⟩
  | cons i rest ih =>
      intro st hst hgood
      obtain ⟨hiu, hierr⟩ := hgood i (List.mem_cons_self i rest)
      have ht : isUnder srcp (dstRoot ++ relTo i srcp) = false :=
        not_isUnder_targ srcp dstRoot sep1 sep2 (relTo i srcp)
      have hst1 : SrcStable fs0 srcp
          (syncStep (pathStr (relTo i srcp)) i (dstRoot ++ relTo i srcp) st).fs :=
        step_SrcStable fs0 srcp st _ i (dstRoot ++ relTo i srcp) ht hst
      have hset1 : settledFor fs0 srcp dstRoot
          (syncStep (pathStr (relTo i srcp)) i (dstRoot ++ relTo i srcp) st).fs i :=
        step_establishes fs0 srcp dstRoot st _ i hiu hst hierr
      obtain ⟨ihst, ihstab, ihset⟩ :=
        ih (syncStep (pathStr (relTo i srcp)) i (dstRoot ++ relTo i srcp) st) hst1
          (fun j hj => hgood j (List.mem_cons_of_mem i hj))
      simp only [syncDirLoop]
      refine ⟨ihst, ?_, ?_⟩
      · intro j hju hjset
        apply ihstab j hju
        by_cases hij : i = j
        · rw [← hij]
          exact hset1
        · refine step_preserves_settled_ne fs0 srcp dstRoot st _ i j ?_ hjset
          intro he
          exact hij (targOf_inj srcp dstRoot hiu hju he)
      · intro j hj
        rcases List.mem_cons.mp hj with hj | hj
        · subst hj
          exact ihstab j hiu hset1
        · exact ihset j hj

/-- The directory loop never changes which files are enumerated under the
source root: every write lands under the destination root. -/
theorem syncDirLoop_rglob_preserved (srcp dstRoot : FPath)
    (sep1 : isUnder srcp dstRoot = false) (sep2 : isUnder dstRoot srcp = false) :
    ∀ (items : List FPath) (st : SyncSt),
    (syncDirLoop srcp dstRoot items st).fs.rglobFiles srcp =
      st.fs.rglobFiles srcp := by
  intro items
  induction items with
  | nil => intro st; rfl
  | cons i rest ih =>
      intro st
      simp only [syncDirLoop]
      rw [ih]
      exact syncStep_rglob_preserved _ _ _ _ _
        (strictUnder_false_of_isUnder_false
          (not_isUnder_targ srcp dstRoot sep1 sep2 (relTo i srcp)))

/-- When every enumerated item is already settled, a pass of the directory
loop is pure bookkeeping: each file is counted as skipped and nothing else
changes. -/
theorem syncDirLoop_all_skip (srcp dstRoot : FPath) :
    ∀ (items : List FPath) (st : SyncSt),
    (∀ i ∈ items, ∃ sd, lookupF st.fs.files i = some sd ∧
      st.fs.existsAt (targOf srcp dstRoot i) = true ∧
      sd.mtime ≤ st.fs.mtimeAt (targOf srcp dstRoot i)) →
    syncDirLoop srcp dstRoot items st =
      { st with skipped := st.skipped + items.length } := by
  intro items
  induction items with
  | nil =>
      intro st _
      show st = { st with skipped := st.skipped + 0 }
      rw [Nat.add_zero]
  | cons i rest ih =>
      intro st h
      obtain ⟨sd, hs, hex, hle⟩ := h i (List.mem_cons_self i rest)
      simp only [targOf] at hex hle
      have hskip : syncStep (pathStr (relTo i srcp)) i (dstRoot ++ relTo i srcp) st =
          { st with skipped := st.skipped + 1 } :=
        syncStep_skip _ _ hs (cond_false_of_skip hex (by omega))
      simp only [syncDirLoop]
      rw [hskip]
      rw [ih { st with skipped := st.skipped + 1 } (fun j hj => h j (List.mem_cons_of_mem i hj))]
      simp only [List.length_cons]
      congr 1
      omega

/-- The counter state at the start of a `sync_files` call. -/
def initSt (fs : FS) : SyncSt :=
  { fs := fs, copied := 0, skipped := 0, errors := 0, errorFiles := [] }

theorem sync_files_file (fs : FS) (srcp dstp : FPath)
    (hf : fs.isFileAt srcp = true) :
    sync_files fs srcp dstp =
      { st := syncStep (lastName srcp) srcp (dstp ++ [lastName srcp]) (initSt fs),
        failed := false } := by
  simp only [sync_files, hf, if_true]
  rfl

theorem sync_files_dir (fs : FS) (srcp dstp : FPath)
    (hf : fs.isFileAt srcp = false) :
    sync_files fs srcp dstp =
      { st := syncDirLoop srcp (dstp ++ [lastName srcp]) (fs.rglobFiles srcp)
                (initSt (fs.mkdirParents (dstp ++ [lastName srcp]))),
        failed := false } := by
  simp only [sync_files, hf, Bool.false_eq_true, if_false]
  rfl

/-- The number of per-file entries a sync of `srcp` processes: one for a
regular-file source, the number of enumerated files for a directory source. -/
def srcFileTotal (fs : FS) (srcp : FPath) : Nat :=
  if fs.isFileAt srcp then 1 else (fs.rglobFiles srcp).length

/-- C2.  Idempotence: when the source and destination subtrees are disjoint
and every source file is readable, running `sync_files` twice in succession
with no change to the source tree between the runs yields zero copies and
zero errors on the second run, with every file of the source reported as
skipped.  This rests on each copy of the first run installing the source's
data — in particular its modification time — at the mirror path
(`shutil.copy2` preserves modification time and permission bits), so the
second run's comparison finds every destination at least as new. -/
theorem C2_idempotent_second_run (fs : FS) (srcp dstp : FPath)
    (sep1 : isUnder srcp (dstp ++ [lastName srcp]) = false)
    (sep2 : isUnder (dstp ++ [lastName srcp]) srcp = false)
    (herr : errFreeUnder fs srcp = true) :
    (sync_files (sync_files fs srcp dstp).st.fs srcp dstp).st.copied = 0 ∧
    (sync_files (sync_files fs srcp dstp).st.fs srcp dstp).st.errors = 0 ∧
    (sync_files (sync_files fs srcp dstp).st.fs srcp dstp).st.errorFiles = [] ∧
    (sync_files (sync_files fs srcp dstp).st.fs srcp dstp).st.skipped =
      srcFileTotal fs srcp := by
  by_cases hf : fs.isFileAt srcp = true
  · -- single-file source
    have hfl : (lookupF fs.files srcp).isSome = true := hf
    obtain ⟨sd, hs⟩ := Option.isSome_iff_exists.mp hfl
    have herrn : sd.err = none := errFree_lookup herr (isUnder_refl srcp) hs
    have hbase : SrcStable fs srcp (initSt fs).fs := fun q _ => rfl
    have hstab1 : SrcStable fs srcp
        (syncStep (lastName srcp) srcp
          (targOf srcp (dstp ++ [lastName srcp]) srcp) (initSt fs)).fs := by
      rw [targOf_self]
      exact step_SrcStable fs srcp (initSt fs) _ srcp _ sep1 hbase
    have hset1 : settledFor fs srcp (dstp ++ [lastName srcp])
        (syncStep (lastName srcp) srcp
          (targOf srcp (dstp ++ [lastName srcp]) srcp) (initSt fs)).fs srcp :=
      step_establishes fs srcp (dstp ++ [lastName srcp]) (initSt fs) _ srcp
        (isUnder_refl srcp) hbase
        (fun sd' hsd' => by
          rw [hs] at hsd'
          injection hsd' with he
          rw [← he]
          exact herrn)
    rw [targOf_self] at hstab1 hset1
    rw [sync_files_file fs srcp dstp hf]
    dsimp only
    have hf1 : (syncStep (lastName srcp) srcp (dstp ++ [lastName srcp])
        (initSt fs)).fs.isFileAt srcp = true := by
      unfold FS.isFileAt
      rw [hstab1 srcp (isUnder_refl srcp), hs]
      rfl
    rw [sync_files_file _ srcp dstp hf1]
    dsimp only
    obtain ⟨hex, hle⟩ := hset1 sd hs
    rw [targOf_self] at hex hle
    have hs2 : lookupF (initSt (syncStep (lastName srcp) srcp
        (dstp ++ [lastName srcp]) (initSt fs)).fs).fs.files srcp = some sd := by
      show lookupF (syncStep (lastName srcp) srcp (dstp ++ [lastName srcp])
        (initSt fs)).fs.files srcp = some sd
      rw [hstab1 srcp (isUnder_refl srcp)]
      exact hs
    have hex2 : (initSt (syncStep (lastName srcp) srcp (dstp ++ [lastName srcp])
        (initSt fs)).fs).fs.existsAt (dstp ++ [lastName srcp]) = true := hex
    have hle2 : sd.mtime ≤ (initSt (syncStep (lastName srcp) srcp
        (dstp ++ [lastName srcp]) (initSt fs)).fs).fs.mtimeAt
        (dstp ++ [lastName srcp]) := hle
    rw [syncStep_skip _ _ hs2 (cond_false_of_skip hex2 (by omega))]
    refine ⟨rfl, rfl, rfl, ?_⟩
    simp [srcFileTotal, hf, initSt]
  · -- directory source
    have hf' : fs.isFileAt srcp = false := Bool.eq_false_iff.mpr hf
    have hgood : ∀ i ∈ fs.rglobFiles srcp, isUnder srcp i = true ∧
        (∀ sd, lookupF fs.files i = some sd → sd.err = none) := by
      intro i hi
      unfold FS.rglobFiles at hi
      rw [List.mem_filter] at hi
      have hiu : isUnder srcp i = true := strictUnder_isUnder hi.2
      exact ⟨hiu, fun sd hsd => errFree_lookup herr hiu hsd⟩
    have hbase : SrcStable fs srcp
        (initSt (fs.mkdirParents (dstp ++ [lastName srcp]))).fs :=
      fun q _ => rfl
    obtain ⟨hstab1, _, hset1⟩ :=
      syncDirLoop_run1 fs srcp (dstp ++ [lastName srcp]) sep1 sep2
        (fs.rglobFiles srcp)
        (initSt (fs.mkdirParents (dstp ++ [lastName srcp]))) hbase hgood
    rw [sync_files_dir fs srcp dstp hf']
    dsimp only
    have hfs1not : (syncDirLoop srcp (dstp ++ [lastName srcp])
        (fs.rglobFiles srcp)
        (initSt (fs.mkdirParents (dstp ++ [lastName srcp])))).fs.isFileAt srcp
        = false := by
      unfold FS.isFileAt at hf' ⊢
      rw [hstab1 srcp (isUnder_refl srcp)]
      exact hf'
    rw [sync_files_dir _ srcp dstp hfs1not]
    dsimp only
    have hrg : (syncDirLoop srcp (dstp ++ [lastName srcp]) (fs.rglobFiles srcp)
        (initSt (fs.mkdirParents (dstp ++ [lastName srcp])))).fs.rglobFiles srcp
        = fs.rglobFiles srcp :=
      syncDirLoop_rglob_preserved srcp (dstp ++ [lastName srcp]) sep1 sep2
        (fs.rglobFiles srcp) (initSt (fs.mkdirParents (dstp ++ [lastName srcp])))
    rw [hrg]
    have hallskip := syncDirLoop_all_skip srcp (dstp ++ [lastName srcp])
      (fs.rglobFiles srcp)
      (initSt ((syncDirLoop srcp (dstp ++ [lastName srcp]) (fs.rglobFiles srcp)
        (initSt (fs.mkdirParents (dstp ++ [lastName srcp])))).fs.mkdirParents
          (dstp ++ [lastName srcp])))
      (by
        intro i hi
        have hiu : isUnder srcp i = true := (hgood i hi).1
        have hmemk : i ∈ fs.files.map (fun e => e.1) := by
          unfold FS.rglobFiles at hi
          rw [List.mem_filter] at hi
          exact hi.1
        obtain ⟨sd, hsd⟩ :=
          Option.isSome_iff_exists.mp (lookupF_isSome_of_mem_keys hmemk)
        obtain ⟨hex, hle⟩ := hset1 i hi sd hsd
        refine ⟨sd, ?_, ?_, ?_⟩
        · show lookupF (syncDirLoop srcp (dstp ++ [lastName srcp])
            (fs.rglobFiles srcp)
            (initSt (fs.mkdirParents (dstp ++ [lastName srcp])))).fs.files i
            = some sd
          rw [hstab1 i hiu]
          exact hsd
        · exact mkdirParents_existsAt_mono _ _ _ hex
        · exact hle)
    rw [hallskip]
    refine ⟨rfl, rfl, rfl, ?_⟩
    simp [srcFileTotal, hf', initSt]

def c2fs : FS :=
  { files := [(["s", "a"], ⟨7, 6, 1, none⟩), (["s", "u", "b"], ⟨3, 6, 2, none⟩)],
    dirs := [["s"], ["s", "u"]] }

theorem C2_witness :
    (sync_files (sync_files c2fs ["s"] ["d"]).st.fs ["s"] ["d"]).st.copied = 0 ∧
    (sync_files (sync_files c2fs ["s"] ["d"]).st.fs ["s"] ["d"]).st.skipped = 2 :=
  ⟨(C2_idempotent_second_run c2fs ["s"] ["d"] (by decide) (by decide)
      (by decide)).1,
   (C2_idempotent_second_run c2fs ["s"] ["d"] (by decide) (by decide)
      (by decide)).2.2.2⟩

/-!
### Task store and scheduler

Naive local datetimes (second precision) are represented as seconds counts;
`datetime.combine(d, t)`, `.time()`, `.date()` and `timedelta(days=1)` become
arithmetic on `secsPerDay`.  The uuid supply is a counter: `uuid4()` yields
the next fresh identifier.  A `World` carries the persisted document, the
uuid counter, the active-task id set, the clock, and whether writes to the
document succeed.  Thread dispatch is modelled by returning the list of
tasks for which `threading.Thread(...).start()` is invoked; an execution
emits an event trace (`sync_files` run, persisted update, record removal).
The unbounded `while True` loop of `_run_repeat_task` is modelled by its
body, one execution cycle.
-/

/-- A fully migrated task record (all fields present). -/
structure TaskRec where
  id : Nat
  source_path : String
  destination_path : String
  scheduled_datetime : Nat
  is_repeat : Bool
  is_template : Bool
  last_ran : Option Nat
deriving DecidableEq

/-- A raw record as read from the JSON document: `id`, `is_template` and
`last_ran` may be absent in legacy records. -/
structure RawTask where
  id : Option Nat
  source_path : String
  destination_path : String
  scheduled_datetime : Nat
  is_repeat : Bool
  is_template : Option Bool
  last_ran : Option (Option Nat)
deriving DecidableEq

/-- The JSON shape of a migrated record. -/
def TaskRec.toRaw (t : TaskRec) : RawTask :=
  { id := some t.id, source_path := t.source_path,
    destination_path := t.destination_path,
    scheduled_datetime := t.scheduled_datetime, is_repeat := t.is_repeat,
    is_template := some t.is_template, last_ran := some t.last_ran }

/-- The persisted document: absent (`TASKS_FILE` does not exist), unreadable
or unparsable, or a parsed list of records. -/
inductive StoreDoc where
  | missing
  | corrupt
  | good (recs : List RawTask)
deriving DecidableEq

/-- The state the task manager operates on. -/
structure World where
  store : StoreDoc
  nextId : Nat
  active : List Nat
  now : Nat
  writeOk : Bool
deriving DecidableEq

/-- Migration of one legacy record (the body of the for-loop in
`load_tasks`): fill a fresh id when absent, default `is_template` to false,
default `last_ran` to absent. -/
def migrateOne (n : Nat) (r : RawTask) : TaskRec × Nat :=
  match r.id with
  | some i =>
      ({ id := i, source_path := r.source_path,
         destination_path := r.destination_path,
         scheduled_datetime := r.scheduled_datetime, is_repeat := r.is_repeat,
         is_template := r.is_template.getD false,
         last_ran := r.last_ran.getD none }, n)
  | none =>
      ({ id := n, source_path := r.source_path,
         destination_path := r.destination_path,
         scheduled_datetime := r.scheduled_datetime, is_repeat := r.is_repeat,
         is_template := r.is_template.getD false,
         last_ran := r.last_ran.getD none }, n + 1)

/-- Migration of the whole record list, threading the uuid supply. -/
def migrateAll (n : Nat) : List RawTask → List TaskRec × Nat
  | [] => ([], n)
  | r :: rs =>
      let p := migrateOne n r
      let q := migrateAll p.2 rs
      (p.1 :: q.1, q.2)

/-- `save_tasks(tasks)`: overwrite the whole document; on failure, log and
return (nothing is raised; the model leaves the previous content). -/
def save_tasks (w : World) (rs : List RawTask) : World :=
  if w.writeOk then { w with store := StoreDoc.good rs } else w

/-- `load_tasks()`: an absent file yields `[]` (without any write); a read or
parse failure is caught, logged and yields `[]`; a successful read migrates
every legacy record in place, rewrites the full migrated set back to storage
and returns it. -/
def load_tasks (w : World) : World × List TaskRec :=
  match w.store with
  | StoreDoc.missing => (w, [])
  | StoreDoc.corrupt => (w, [])
  | StoreDoc.good rs =>
      let p := migrateAll w.nextId rs
      (save_tasks { w with nextId := p.2 } (p.1.map TaskRec.toRaw), p.1)

/-- The partial field update passed to `update_task`. -/
structure TaskUpdates where
  last_ran : Option (Option Nat) := none
  scheduled_datetime : Option Nat := none
deriving DecidableEq

/-- `task.update(updates)` on one record. -/
def applyUpd (t : TaskRec) (u : TaskUpdates) : TaskRec :=
  { t with
      last_ran := match u.last_ran with
        | some v => v
        | none => t.last_ran,
      scheduled_datetime := match u.scheduled_datetime with
        | some v => v
        | none => t.scheduled_datetime }

/-- The for-loop of `update_task`: update the first record with the given id
(then `break`), leaving everything else unchanged. -/
def updateFirst : List TaskRec → Nat → TaskUpdates → List TaskRec
  | [], _, _ => []
  | t :: r, tid, u =>
      if t.id = tid then applyUpd t u :: r else t :: updateFirst r tid u

/-- First record with the given id, if any. -/
def findTask : List TaskRec → Nat → Option TaskRec
  | [], _ => none
  | t :: r, tid => if t.id = tid then some t else findTask r tid

/-- `add_task(task_data)`: load, append, save. -/
def add_task (w : World) (t : TaskRec) : World :=
  let p := load_tasks w
  save_tasks p.1 ((p.2 ++ [t]).map TaskRec.toRaw)

/-- `remove_task(task_id)`: load, drop every record with the id, save, and
discard the id from the active set. -/
def remove_task (w : World) (tid : Nat) : World :=
  let p := load_tasks w
  let w2 := save_tasks p.1
    ((p.2.filter (fun t => decide (t.id ≠ tid))).map TaskRec.toRaw)
  { w2 with active := w2.active.filter (fun j => decide (j ≠ tid)) }

/-- `update_task(task_id, updates)`: load, update the first matching record,
save. -/
def update_task (w : World) (tid : Nat) (u : TaskUpdates) : World :=
  let p := load_tasks w
  save_tasks p.1 ((updateFirst p.2 tid u).map TaskRec.toRaw)

def secsPerDay : Nat := 86400

/-- The next-fire computation shared by `_run_repeat_task` and the repeat
branch of `load_and_start_tasks`: combine today's date with the stored
schedule's time-of-day; if the result is not strictly after the current
instant, use tomorrow's date. -/
def nextDaily (now sched : Nat) : Nat :=
  let tod := sched % secsPerDay
  let cand := now / secsPerDay * secsPerDay + tod
  if cand ≤ now then cand + secsPerDay else cand

/-- Observable actions of one task execution. -/
inductive Event where
  | syncRun (src dst : String) (fireAt : Nat)
  | persist (tid : Nat) (u : TaskUpdates)
  | removeRec (tid : Nat)
deriving DecidableEq

def isSyncEv : Event → Bool
  | Event.syncRun _ _ _ => true
  | _ => false

/-- `_run_one_time_task(task)`: wait until the scheduled instant if it is in
the future, run the sync pass (taking `dur` seconds), persist `last_ran` as
the completion instant, then delete the record. -/
def run_one_time_task (w : World) (t : TaskRec) (dur : Nat) :
    World × List Event :=
  let fire := if w.now < t.scheduled_datetime then t.scheduled_datetime else w.now
  let w1 : World := { w with now := fire + dur }
  let u : TaskUpdates := { last_ran := some (some (fire + dur)) }
  let w2 := update_task w1 t.id u
  let w3 := remove_task w2 t.id
  (w3, [Event.syncRun t.source_path t.destination_path fire,
        Event.persist t.id u, Event.removeRec t.id])

/-- One cycle of the `while True` loop of `_run_repeat_task`: compute the
next fire instant, sleep until it, run the sync pass (taking `dur` seconds),
then persist `last_ran` (actual completion time) and `scheduled_datetime`
(the computed fire instant plus one day). -/
def run_repeat_cycle (w : World) (t : TaskRec) (dur : Nat) :
    World × List Event :=
  let fire := nextDaily w.now t.scheduled_datetime
  let w1 : World := { w with now := fire + dur }
  let u : TaskUpdates := { last_ran := some (some (fire + dur)),
                           scheduled_datetime := some (fire + secsPerDay) }
  (update_task w1 t.id u,
   [Event.syncRun t.source_path t.destination_path fire, Event.persist t.id u])

/-- `run_task(task)`: a no-op when the id is already in the active set;
otherwise add the id and run the repeat loop (one cycle modelled) or the
one-time body. -/
def run_task (w : World) (t : TaskRec) (dur : Nat) : World × List Event :=
  if memB t.id w.active then (w, [])
  else
    let w1 : World := { w with active := t.id :: w.active }
    if t.is_repeat then run_repeat_cycle w1 t dur
    else run_one_time_task w1 t dur

/-- The body of the startup loop of `load_and_start_tasks` for one stored
record: skip templates; skip ids already active; for a repeat task persist
the recomputed next fire instant and dispatch the updated task; for a
one-time task whose time has elapsed, remove the record and do not dispatch;
otherwise dispatch as is. -/
def processOne (w : World) (disp : List TaskRec) (t : TaskRec) :
    World × List TaskRec :=
  if t.is_template then (w, disp)
  else if memB t.id w.active then (w, disp)
  else if t.is_repeat then
    let nr := nextDaily w.now t.scheduled_datetime
    (update_task w t.id { scheduled_datetime := some nr },
     disp ++ [{ t with scheduled_datetime := nr }])
  else if t.scheduled_datetime ≤ w.now then
    (remove_task w t.id, disp)
  else (w, disp ++ [t])

/-- The startup loop over the loaded records, accumulating the dispatched
tasks. -/
def startLoop : World → List TaskRec → List TaskRec → World × List TaskRec
  | w, disp, [] => (w, disp)
  | w, disp, t :: rest =>
      let p := processOne w disp t
      startLoop p.1 p.2 rest

/-- `load_and_start_tasks()`: load (migrating), then process every record. -/
def load_and_start_tasks (w : World) : World × List TaskRec :=
  let p := load_tasks w
  startLoop p.1 [] p.2

/-! ### Store lemmas -/

theorem migrateOne_toRaw (n : Nat) (t : TaskRec) :
    migrateOne n t.toRaw = (t, n) := rfl

theorem migrateAll_toRaw (n : Nat) (ts : List TaskRec) :
    migrateAll n (ts.map TaskRec.toRaw) = (ts, n) := by
  induction ts generalizing n with
  | nil => rfl
  | cons t rest ih =>
      simp only [List.map, migrateAll, migrateOne_toRaw, ih]

theorem load_tasks_good (w : World) (ts : List TaskRec)
    (hs : w.store = StoreDoc.good (ts.map TaskRec.toRaw))
    (hw : w.writeOk = true) :
    load_tasks w = (w, ts) := by
  simp only [load_tasks, hs, migrateAll_toRaw]
  unfold save_tasks
  split
  · rw [← hs]
  · rename_i hfalse
    exact absurd hw (by simpa using hfalse)

theorem update_task_good (w : World) (ts : List TaskRec) (tid : Nat)
    (u : TaskUpdates)
    (hs : w.store = StoreDoc.good (ts.map TaskRec.toRaw))
    (hw : w.writeOk = true) :
    update_task w tid u =
      { w with store := StoreDoc.good ((updateFirst ts tid u).map TaskRec.toRaw) } := by
  unfold update_task
  rw [load_tasks_good w ts hs hw]
  unfold save_tasks
  dsimp only
  rw [hw, if_pos rfl]

theorem remove_task_good (w : World) (ts : List TaskRec) (tid : Nat)
    (hs : w.store = StoreDoc.good (ts.map TaskRec.toRaw))
    (hw : w.writeOk = true) :
    remove_task w tid =
      { w with
          store := StoreDoc.good
            ((ts.filter (fun t => decide (t.id ≠ tid))).map TaskRec.toRaw),
          active := w.active.filter (fun j => decide (j ≠ tid)) } := by
  unfold remove_task
  rw [load_tasks_good w ts hs hw]
  unfold save_tasks
  dsimp only
  rw [hw, if_pos rfl]

theorem save_tasks_active (w : World) (rs : List RawTask) :
    (save_tasks w rs).active = w.active := by
  unfold save_tasks
  split <;> rfl

theorem save_tasks_now (w : World) (rs : List RawTask) :
    (save_tasks w rs).now = w.now := by
  unfold save_tasks
  split <;> rfl

theorem save_tasks_writeOk (w : World) (rs : List RawTask) :
    (save_tasks w rs).writeOk = w.writeOk := by
  unfold save_tasks
  split <;> rfl

theorem load_tasks_active (w : World) : (load_tasks w).1.active = w.active := by
  unfold load_tasks
  cases w.store <;> simp [save_tasks_active]

theorem load_tasks_now (w : World) : (load_tasks w).1.now = w.now := by
  unfold load_tasks
  cases w.store <;> simp [save_tasks_now]

theorem update_task_active (w : World) (tid : Nat) (u : TaskUpdates) :
    (update_task w tid u).active = w.active := by
  unfold update_task
  rw [save_tasks_active, load_tasks_active]

theorem remove_task_active (w : World) (tid : Nat) :
    (remove_task w tid).active =
      w.active.filter (fun j => decide (j ≠ tid)) := by
  unfold remove_task
  dsimp only
  rw [save_tasks_active, load_tasks_active]

theorem memB_filter_ne_self (tid : Nat) (l : List Nat) :
    memB tid (l.filter (fun j => decide (j ≠ tid))) = false := by
  induction l with
  | nil => rfl
  | cons a r ih =>
      rw [List.filter_cons]
      by_cases ha : a = tid
      · rw [if_neg (by simp [ha])]
        exact ih
      · rw [if_pos (by simp [ha])]
        simp only [memB]
        rw [if_neg (fun he => ha he.symm)]
        exact ih

theorem memB_filter_false {j : Nat} {l : List Nat} (p : Nat → Bool)
    (h : memB j l = false) : memB j (l.filter p) = false := by
  induction l with
  | nil => rfl
  | cons a r ih =>
      simp only [memB] at h
      have hja : ¬ j = a := by
        intro he
        rw [if_pos he] at h
        cases h
      rw [if_neg hja] at h
      rw [List.filter_cons]
      by_cases hp : p a = true
      · rw [if_pos hp]
        simp only [memB]
        rw [if_neg hja]
        exact ih h
      · rw [if_neg hp]
        exact ih h

theorem findTask_updateFirst (ts : List TaskRec) (tid : Nat) (u : TaskUpdates)
    (t : TaskRec) (h : findTask ts tid = some t) :
    findTask (updateFirst ts tid u) tid = some (applyUpd t u) := by
  induction ts with
  | nil => cases h
  | cons x r ih =>
      by_cases hx : x.id = tid
      · simp only [findTask, if_pos hx] at h
        injection h with he
        subst he
        simp only [updateFirst, if_pos hx, findTask]
        rw [if_pos (show (applyUpd x u).id = tid from hx)]
      · simp only [findTask, if_neg hx] at h
        simp only [updateFirst, if_neg hx, findTask, if_neg hx]
        exact ih h

theorem findTask_updateFirst_ne (ts : List TaskRec) (xid tid : Nat)
    (u : TaskUpdates) (hne : xid ≠ tid) :
    findTask (updateFirst ts xid u) tid = findTask ts tid := by
  induction ts with
  | nil => rfl
  | cons x r ih =>
      by_cases hx : x.id = xid
      · have hxt : ¬ x.id = tid := fun he => hne (hx ▸ he ▸ rfl)
        simp only [updateFirst, if_pos hx, findTask]
        rw [if_neg (show ¬ (applyUpd x u).id = tid from hxt), if_neg hxt]
      · simp only [updateFirst, if_neg hx, findTask]
        by_cases hxt : x.id = tid
        · rw [if_pos hxt, if_pos hxt]
        · rw [if_neg hxt, if_neg hxt]
          exact ih

theorem findTask_filter_ne (ts : List TaskRec) (tid : Nat) :
    findTask (ts.filter (fun t => decide (t.id ≠ tid))) tid = none := by
  induction ts with
  | nil => rfl
  | cons x r ih =>
      rw [List.filter_cons]
      by_cases hx : x.id = tid
      · rw [if_neg (by simp [hx])]
        exact ih
      · rw [if_pos (by simp [hx])]
        simp only [findTask]
        rw [if_neg hx]
        exact ih

theorem findTask_filter_other (ts : List TaskRec) (xid tid : Nat)
    (hne : xid ≠ tid) :
    findTask (ts.filter (fun t => decide (t.id ≠ xid))) tid =
      findTask ts tid := by
  induction ts with
  | nil => rfl
  | cons x r ih =>
      rw [List.filter_cons]
      by_cases hx : x.id = xid
      · have hxt : ¬ x.id = tid := by
          rw [hx]
          exact hne
        rw [if_neg (by simp [hx])]
        rw [ih]
        simp only [findTask]
        rw [if_neg hxt]
      · rw [if_pos (by simp [hx])]
        simp only [findTask]
        by_cases hxt : x.id = tid
        · rw [if_pos hxt, if_pos hxt]
        · rw [if_neg hxt, if_neg hxt]
          exact ih

/-! ### Migration specification -/

/-- Field-by-field relation between a raw record and its migrated form:
present fields are preserved; an absent `is_template` becomes `false`, an
absent `last_ran` becomes absent, a present id is kept. -/
def migratesFrom (r : RawTask) (t : TaskRec) : Prop :=
  t.source_path = r.source_path ∧ t.destination_path = r.destination_path ∧
  t.scheduled_datetime = r.scheduled_datetime ∧ t.is_repeat = r.is_repeat ∧
  (∀ i, r.id = some i → t.id = i) ∧
  t.is_template = r.is_template.getD false ∧
  t.last_ran = r.last_ran.getD none

theorem migrateOne_spec (n : Nat) (r : RawTask) :
    migratesFrom r (migrateOne n r).1 := by
  unfold migrateOne migratesFrom
  cases hid : r.id with
  | none =>
      refine ⟨rfl, rfl, rfl, rfl, ?_, rfl, rfl⟩
      intro i hi
      cases hi
  | some i =>
      refine ⟨rfl, rfl, rfl, rfl, ?_, rfl, rfl⟩
      intro j hj
      injection hj

theorem migrateOne_le (n : Nat) (r : RawTask) : n ≤ (migrateOne n r).2 := by
  unfold migrateOne
  cases r.id with
  | none => exact Nat.le_succ n
  | some i => exact Nat.le_refl n

theorem migrateAll_le (n : Nat) (rs : List RawTask) :
    n ≤ (migrateAll n rs).2 := by
  induction rs generalizing n with
  | nil => exact Nat.le_refl n
  | cons r rest ih =>
      exact Nat.le_trans (migrateOne_le n r) (ih (migrateOne n r).2)

theorem migrateAll_forall2 (n : Nat) (rs : List RawTask) :
    List.Forall₂ migratesFrom rs (migrateAll n rs).1 := by
  induction rs generalizing n with
  | nil => exact List.Forall₂.nil
  | cons r rest ih =>
      exact List.Forall₂.cons (migrateOne_spec n r) (ih (migrateOne n r).2)

theorem migrateAll_origin (n : Nat) (rs : List RawTask) :
    ∀ t ∈ (migrateAll n rs).1, (∃ r ∈ rs, r.id = some t.id) ∨ n ≤ t.id := by
  induction rs generalizing n with
  | nil => intro t ht; cases ht
  | cons r rest ih =>
      intro t ht
      rcases List.mem_cons.mp ht with h | h
      · cases hid : r.id with
        | none =>
            right
            rw [h]
            unfold migrateOne
            rw [hid]
        | some i =>
            left
            refine ⟨r, List.mem_cons_self r rest, ?_⟩
            rw [hid, h]
            unfold migrateOne
            rw [hid]
      · rcases ih (migrateOne n r).2 t h with ⟨r', hr', hid'⟩ | hge
        · exact Or.inl ⟨r', List.mem_cons_of_mem r hr', hid'⟩
        · exact Or.inr (Nat.le_trans (migrateOne_le n r) hge)

theorem migrateAll_nodup (n : Nat) (rs : List RawTask)
    (hb : ∀ r ∈ rs, ∀ i, r.id = some i → i < n)
    (hnd : (rs.filterMap (fun r => r.id)).Nodup) :
    ((migrateAll n rs).1.map (fun t => t.id)).Nodup := by
  induction rs generalizing n with
  | nil => exact List.nodup_nil
  | cons r rest ih =>
      have hmap : (migrateAll n (r :: rest)).1.map (fun t => t.id) =
          (migrateOne n r).1.id ::
            (migrateAll (migrateOne n r).2 rest).1.map (fun t => t.id) := rfl
      rw [hmap, List.nodup_cons]
      have hbrest : ∀ r' ∈ rest, ∀ i, r'.id = some i → i < (migrateOne n r).2 :=
        fun r' hr' i hi =>
          Nat.lt_of_lt_of_le (hb r' (List.mem_cons_of_mem r hr') i hi)
            (migrateOne_le n r)
      have hndrest : (rest.filterMap (fun x => x.id)).Nodup := by
        cases hid : r.id with
        | none =>
            rw [List.filterMap_cons, hid] at hnd
            exact hnd
        | some i =>
            rw [List.filterMap_cons, hid] at hnd
            exact (List.nodup_cons.mp hnd).2
      refine ⟨?_, ih (migrateOne n r).2 hbrest hndrest⟩
      intro hmem
      rw [List.mem_map] at hmem
      obtain ⟨t, ht, hteq⟩ := hmem
      rcases migrateAll_origin (migrateOne n r).2 rest t ht with ⟨r', hr', hid'⟩ | hge
      · cases hid : r.id with
        | some i =>
            have hhead : (migrateOne n r).1.id = i := by
              unfold migrateOne
              rw [hid]
            have hti : t.id = i := by rw [← hhead, hteq]
            have : i ∈ rest.filterMap (fun x => x.id) := by
              rw [List.mem_filterMap]
              exact ⟨r', hr', by rw [hid', hti]⟩
            rw [List.filterMap_cons, hid] at hnd
            exact (List.nodup_cons.mp hnd).1 this
        | none =>
            have hhead : (migrateOne n r).1.id = n := by
              unfold migrateOne
              rw [hid]
            have htn : t.id = n := by rw [← hhead, hteq]
            have hlt : t.id < n :=
              hb r' (List.mem_cons_of_mem r hr') t.id hid'
            omega
      · cases hid : r.id with
        | some i =>
            have hhead : (migrateOne n r).1.id = i := by
              unfold migrateOne
              rw [hid]
            have hin : i < n := hb r (List.mem_cons_self r rest) i hid
            have hn1 : n ≤ (migrateOne n r).2 := migrateOne_le n r
            have : t.id = i := by rw [← hhead, hteq]
            omega
        | none =>
            have hhead : (migrateOne n r).1.id = n := by
              unfold migrateOne
              rw [hid]
            have hn1 : (migrateOne n r).2 = n + 1 := by
              unfold migrateOne
              rw [hid]
            have : t.id = n := by rw [← hhead, hteq]
            omega

/-- C9.  Loading the task store fails soft: an unreadable or unparsable
document (and an absent one) yields an empty list with nothing raised and
the world unchanged; a failed save is absorbed (nothing raised, previous
content left).  A successful read migrates every legacy record in place —
filling a freshly generated unique id when `id` is absent (fresh ids are
pairwise distinct and distinct from every stored id below the supply
counter), `is_template = false` when absent, `last_ran` absent when absent —
and immediately rewrites the full migrated set back to storage. -/
theorem C9_load_migrates_softly (w : World) (rs rs' : List RawTask) :
    (load_tasks { w with store := StoreDoc.corrupt } =
      ({ w with store := StoreDoc.corrupt }, [])) ∧
    (load_tasks { w with store := StoreDoc.missing } =
      ({ w with store := StoreDoc.missing }, [])) ∧
    ((save_tasks { w with writeOk := false } rs').store = w.store) ∧
    (w.store = StoreDoc.good rs → w.writeOk = true →
      List.Forall₂ migratesFrom rs (load_tasks w).2 ∧
      (load_tasks w).1.store =
        StoreDoc.good ((load_tasks w).2.map TaskRec.toRaw) ∧
      ((∀ r ∈ rs, ∀ i, r.id = some i → i < w.nextId) →
        (rs.filterMap (fun r => r.id)).Nodup →
        ((load_tasks w).2.map (fun t => t.id)).Nodup)) := by
  refine ⟨rfl, rfl, ?_, ?_⟩
  · unfold save_tasks
    rw [if_neg (by simp)]
  · intro hg hw
    simp only [load_tasks, hg]
    refine ⟨migrateAll_forall2 w.nextId rs, ?_, ?_⟩
    · unfold save_tasks
      dsimp only
      rw [hw, if_pos rfl]
    · intro hb hnd
      exact migrateAll_nodup w.nextId rs hb hnd

def c9raw : RawTask :=
  { id := none, source_path := "a", destination_path := "b",
    scheduled_datetime := 7, is_repeat := false, is_template := none,
    last_ran := none }

def c9w : World :=
  { store := StoreDoc.good [c9raw], nextId := 5, active := [], now := 0,
    writeOk := true }

theorem C9_witness :
    (load_tasks c9w).1.store =
      StoreDoc.good ((load_tasks c9w).2.map TaskRec.toRaw) :=
  ((C9_load_migrates_softly c9w [c9raw] []).2.2.2 rfl rfl).2.1

/-- C5.  One cycle of a repeat task: the next fire instant carries the
time-of-day component of the stored schedule, is strictly after the current
instant, and is at most one day ahead (today's combination, or tomorrow's
exactly when today's is not strictly in the future); after the sync pass the
persisted `scheduled_datetime` equals that computed fire instant plus exactly
24 hours — independent of how long the pass took, i.e. anchored to the
trigger instant, not the completion instant — while `last_ran` is persisted
as the actual completion time. -/
theorem C5_repeat_cycle_advance (w : World) (ts : List TaskRec) (t : TaskRec)
    (dur : Nat)
    (hs : w.store = StoreDoc.good (ts.map TaskRec.toRaw))
    (hw : w.writeOk = true)
    (ht : findTask ts t.id = some t) :
    (nextDaily w.now t.scheduled_datetime) % secsPerDay =
      t.scheduled_datetime % secsPerDay ∧
    w.now < nextDaily w.now t.scheduled_datetime ∧
    nextDaily w.now t.scheduled_datetime ≤ w.now + secsPerDay ∧
    (run_repeat_cycle w t dur).2 =
      [Event.syncRun t.source_path t.destination_path
         (nextDaily w.now t.scheduled_datetime),
       Event.persist t.id
         { last_ran := some (some (nextDaily w.now t.scheduled_datetime + dur)),
           scheduled_datetime :=
             some (nextDaily w.now t.scheduled_datetime + secsPerDay) }] ∧
    ∃ ts',
      (run_repeat_cycle w t dur).1.store =
        StoreDoc.good (ts'.map TaskRec.toRaw) ∧
      findTask ts' t.id = some
        { t with
            scheduled_datetime :=
              nextDaily w.now t.scheduled_datetime + secsPerDay,
            last_ran := some (nextDaily w.now t.scheduled_datetime + dur) } := by
  refine ⟨?_, ?_, ?_, rfl, ?_⟩
  · simp only [nextDaily, secsPerDay]
    split_ifs <;> omega
  · simp only [nextDaily, secsPerDay]
    split_ifs <;> omega
  · simp only [nextDaily, secsPerDay]
    split_ifs <;> omega
  · refine ⟨updateFirst ts t.id
      { last_ran := some (some (nextDaily w.now t.scheduled_datetime + dur)),
        scheduled_datetime :=
          some (nextDaily w.now t.scheduled_datetime + secsPerDay) }, ?_, ?_⟩
    · show (update_task
        { w with now := nextDaily w.now t.scheduled_datetime + dur } t.id
        { last_ran := some (some (nextDaily w.now t.scheduled_datetime + dur)),
          scheduled_datetime :=
            some (nextDaily w.now t.scheduled_datetime + secsPerDay) }).store = _
      rw [update_task_good
        { w with now := nextDaily w.now t.scheduled_datetime + dur } ts t.id _
        hs hw]
    · exact findTask_updateFirst ts t.id _ t ht

def c5task : TaskRec :=
  { id := 2, source_path := "s", destination_path := "d",
    scheduled_datetime := 86400 * 3 + 500, is_repeat := true,
    is_template := false, last_ran := none }

def c5w : World :=
  { store := StoreDoc.good ([c5task].map TaskRec.toRaw), nextId := 0,
    active := [], now := 86400 * 5 + 600, writeOk := true }

theorem C5_witness :
    c5w.now < nextDaily c5w.now c5task.scheduled_datetime ∧
    nextDaily c5w.now c5task.scheduled_datetime % secsPerDay =
      c5task.scheduled_datetime % secsPerDay :=
  ⟨(C5_repeat_cycle_advance c5w [c5task] c5task 9 rfl rfl (by decide)).2.1,
   (C5_repeat_cycle_advance c5w [c5task] c5task 9 rfl rfl (by decide)).1⟩

/-- C6.  Lifecycle of a non-template one-time task scheduled at a future
instant `T`, dispatched via `run_task` with its id not yet active: the trace
is exactly one sync execution (fired at `T`), then the persisted `last_ran`
update (set to the completion instant), then the record removal — in that
strict order; the persisted update does set `last_ran` on the stored record;
afterwards no record with the task's id remains in the store, and the id has
left the active set, so the task cannot run again. -/
theorem C6_one_time_lifecycle (w : World) (ts : List TaskRec) (t : TaskRec)
    (dur : Nat)
    (hs : w.store = StoreDoc.good (ts.map TaskRec.toRaw))
    (hw : w.writeOk = true)
    (ht : findTask ts t.id = some t)
    (hact : memB t.id w.active = false)
    (hrep : t.is_repeat = false)
    (hfut : w.now < t.scheduled_datetime) :
    (run_task w t dur).2 =
      [Event.syncRun t.source_path t.destination_path t.scheduled_datetime,
       Event.persist t.id
         { last_ran := some (some (t.scheduled_datetime + dur)) },
       Event.removeRec t.id] ∧
    ((run_task w t dur).2.filter isSyncEv).length = 1 ∧
    findTask (updateFirst ts t.id
        { last_ran := some (some (t.scheduled_datetime + dur)) }) t.id =
      some { t with last_ran := some (t.scheduled_datetime + dur) } ∧
    (∃ ts',
      (run_task w t dur).1.store = StoreDoc.good (ts'.map TaskRec.toRaw) ∧
      findTask ts' t.id = none) ∧
    memB t.id (run_task w t dur).1.active = false := by
  have hrt : run_task w t dur =
      (remove_task (update_task
          { w with active := t.id :: w.active,
                   now := t.scheduled_datetime + dur }
          t.id { last_ran := some (some (t.scheduled_datetime + dur)) }) t.id,
       [Event.syncRun t.source_path t.destination_path t.scheduled_datetime,
        Event.persist t.id
          { last_ran := some (some (t.scheduled_datetime + dur)) },
        Event.removeRec t.id]) := by
    unfold run_task
    rw [hact, if_neg (by simp)]
    rw [hrep, if_neg (by simp)]
    unfold run_one_time_task
    dsimp only
    rw [if_pos hfut]
  have hupd := update_task_good
      { w with active := t.id :: w.active, now := t.scheduled_datetime + dur }
      ts t.id { last_ran := some (some (t.scheduled_datetime + dur)) } hs hw
  rw [hrt, hupd]
  have hrem := remove_task_good
      { { w with active := t.id :: w.active,
                 now := t.scheduled_datetime + dur } with
          store := StoreDoc.good ((updateFirst ts t.id
            { last_ran := some (some (t.scheduled_datetime + dur)) }).map
              TaskRec.toRaw) }
      (updateFirst ts t.id
        { last_ran := some (some (t.scheduled_datetime + dur)) }) t.id rfl hw
  rw [hrem]
  refine ⟨rfl, by simp [isSyncEv], ?_, ?_, ?_⟩
  · exact findTask_updateFirst ts t.id _ t ht
  · exact ⟨(updateFirst ts t.id
        { last_ran := some (some (t.scheduled_datetime + dur)) }).filter
          (fun x => decide (x.id ≠ t.id)),
      rfl, findTask_filter_ne _ t.id⟩
  · exact memB_filter_ne_self t.id (t.id :: w.active)

def c6task : TaskRec :=
  { id := 3, source_path := "s", destination_path := "d",
    scheduled_datetime := 1000, is_repeat := false, is_template := false,
    last_ran := none }

def c6w : World :=
  { store := StoreDoc.good ([c6task].map TaskRec.toRaw), nextId := 0,
    active := [], now := 400, writeOk := true }

theorem C6_witness :
    ((run_task c6w c6task 7).2.filter isSyncEv).length = 1 ∧
    memB c6task.id (run_task c6w c6task 7).1.active = false :=
  ⟨(C6_one_time_lifecycle c6w [c6task] c6task 7 rfl rfl (by decide) rfl rfl
      (by decide)).2.1,
   (C6_one_time_lifecycle c6w [c6task] c6task 7 rfl rfl (by decide) rfl rfl
      (by decide)).2.2.2.2⟩

/-- C7.  Dispatch guard: dispatching a task whose id is already in the
active set is a no-op — in particular a second dispatch issued right after a
first one entered the active set is a no-op, so two dispatches in quick
succession yield one execution; `remove_task` discards the id from the
active set; and a one-time execution removes its id from the active set on
completion. -/
theorem C7_dispatch_guard (w : World) (t : TaskRec) (dur : Nat) (i : Nat) :
    (memB t.id w.active = true → run_task w t dur = (w, [])) ∧
    (run_task { w with active := t.id :: w.active } t dur =
      ({ w with active := t.id :: w.active }, [])) ∧
    ((remove_task w i).active = w.active.filter (fun j => decide (j ≠ i))) ∧
    (t.is_repeat = false → memB t.id w.active = false →
      memB t.id (run_task w t dur).1.active = false) := by
  refine ⟨?_, ?_, remove_task_active w i, ?_⟩
  · intro h
    unfold run_task
    rw [h, if_pos rfl]
  · unfold run_task
    have hm : memB t.id ({ w with active := t.id :: w.active }).active = true := by
      show memB t.id (t.id :: w.active) = true
      simp [memB]
    rw [hm, if_pos rfl]
  · intro hrep hact
    unfold run_task
    rw [hact, if_neg (by simp), hrep, if_neg (by simp)]
    have hac : (run_one_time_task { w with active := t.id :: w.active } t dur).1.active
        = (t.id :: w.active).filter (fun j => decide (j ≠ t.id)) := by
      unfold run_one_time_task
      dsimp only
      rw [remove_task_active, update_task_active]
    rw [hac]
    exact memB_filter_ne_self t.id (t.id :: w.active)

def c7task : TaskRec :=
  { id := 4, source_path := "s", destination_path := "d",
    scheduled_datetime := 50, is_repeat := false, is_template := false,
    last_ran := none }

def c7w : World :=
  { store := StoreDoc.good ([c7task].map TaskRec.toRaw), nextId := 0,
    active := [], now := 10, writeOk := true }

theorem C7_witness :
    memB c7task.id (run_task c7w c7task 5).1.active = false :=
  (C7_dispatch_guard c7w c7task 5 0).2.2.2 rfl rfl

/-! ### Startup recovery -/

theorem update_task_now (w : World) (tid : Nat) (u : TaskUpdates) :
    (update_task w tid u).now = w.now := by
  unfold update_task
  rw [save_tasks_now, load_tasks_now]

theorem remove_task_now (w : World) (tid : Nat) :
    (remove_task w tid).now = w.now := by
  unfold remove_task
  dsimp only
  rw [save_tasks_now, load_tasks_now]

/-- The store is the saved image of a known record list and writes succeed. -/
def GoodW (w : World) (cur : List TaskRec) : Prop :=
  w.store = StoreDoc.good (cur.map TaskRec.toRaw) ∧ w.writeOk = true

/-- One startup-loop step for a record whose id differs from `tid` keeps the
store in saved-image form, cannot resurrect a record with id `tid`, never
adds to the active set, does not touch the clock, and only dispatches tasks
carrying its own id. -/
theorem processOne_preserved (w : World) (disp : List TaskRec) (x : TaskRec)
    (cur : List TaskRec) (tid : Nat)
    (hG : GoodW w cur) (hx : x.id ≠ tid) :
    ∃ cur',
      GoodW (processOne w disp x).1 cur' ∧
      (findTask cur tid = none → findTask cur' tid = none) ∧
      (memB tid w.active = false →
        memB tid (processOne w disp x).1.active = false) ∧
      (processOne w disp x).1.now = w.now ∧
      (∀ d ∈ (processOne w disp x).2, d ∈ disp ∨ d.id = x.id) := by
  unfold processOne
  by_cases h1 : x.is_template = true
  · rw [h1, if_pos rfl]
    exact ⟨cur, hG, fun h => h, fun h => h, rfl, fun d hd => Or.inl hd⟩
  · rw [Bool.eq_false_iff.mpr h1, if_neg (by simp)]
    by_cases h2 : memB x.id w.active = true
    · rw [h2, if_pos rfl]
      exact ⟨cur, hG, fun h => h, fun h => h, rfl, fun d hd => Or.inl hd⟩
    · rw [Bool.eq_false_iff.mpr h2, if_neg (by simp)]
      by_cases h3 : x.is_repeat = true
      · rw [h3, if_pos rfl]
        dsimp only
        refine ⟨updateFirst cur x.id
          { scheduled_datetime := some (nextDaily w.now x.scheduled_datetime) },
          ⟨?_, ?_⟩, ?_, ?_, ?_, ?_⟩
        · rw [update_task_good w cur x.id _ hG.1 hG.2]
        · rw [update_task_good w cur x.id _ hG.1 hG.2]
          exact hG.2
        · intro h
          rw [findTask_updateFirst_ne cur x.id tid _ hx]
          exact h
        · intro h
          rw [update_task_active]
          exact h
        · exact update_task_now w x.id _
        · intro d hd
          rcases List.mem_append.mp hd with h | h
          · exact Or.inl h
          · rcases List.mem_singleton.mp h with rfl
            exact Or.inr rfl
      · rw [Bool.eq_false_iff.mpr h3, if_neg (by simp)]
        by_cases h4 : x.scheduled_datetime ≤ w.now
        · rw [if_pos h4]
          refine ⟨cur.filter (fun e => decide (e.id ≠ x.id)), ⟨?_, ?_⟩,
            ?_, ?_, ?_, ?_⟩
          · rw [remove_task_good w cur x.id hG.1 hG.2]
          · rw [remove_task_good w cur x.id hG.1 hG.2]
            exact hG.2
          · intro h
            rw [findTask_filter_other cur x.id tid hx]
            exact h
          · intro h
            rw [remove_task_active]
            exact memB_filter_false _ h
          · exact remove_task_now w x.id
          · exact fun d hd => Or.inl hd
        · rw [if_neg h4]
          refine ⟨cur, hG, fun h => h, fun h => h, rfl, ?_⟩
          intro d hd
          rcases List.mem_append.mp hd with h | h
          · exact Or.inl h
          · rcases List.mem_singleton.mp h with rfl
            exact Or.inr rfl

/-- The startup loop over records whose ids all differ from `tid` preserves
the saved-image form of the store, the absence of `tid` from the store, the
absence of `tid` from the active set, the clock, and dispatches only tasks
with ids different from `tid`. -/
theorem startLoop_preserved (tid : Nat) :
    ∀ (L : List TaskRec) (w : World) (disp : List TaskRec)
      (cur : List TaskRec),
    GoodW w cur →
    (∀ x ∈ L, x.id ≠ tid) →
    ∃ cur',
      GoodW (startLoop w disp L).1 cur' ∧
      (findTask cur tid = none → findTask cur' tid = none) ∧
      (memB tid w.active = false →
        memB tid (startLoop w disp L).1.active = false) ∧
      (startLoop w disp L).1.now = w.now ∧
      (∀ d ∈ (startLoop w disp L).2, d ∈ disp ∨ d.id ≠ tid) := by
  intro L
  induction L with
  | nil =>
      intro w disp cur hG _
      exact ⟨cur, hG, fun h => h, fun h => h, rfl, fun d hd => Or.inl hd⟩
  | cons x rest ih =>
      intro w disp cur hG hids
      obtain ⟨cur1, hG1, hfind1, hact1, hnow1, hdisp1⟩ :=
        processOne_preserved w disp x cur tid hG
          (hids x (List.mem_cons_self x rest))
      obtain ⟨cur', hG', hfind', hact', hnow', hdisp'⟩ :=
        ih (processOne w disp x).1 (processOne w disp x).2 cur1 hG1
          (fun y hy => hids y (List.mem_cons_of_mem x hy))
      refine ⟨cur', hG', ?_, ?_, ?_, ?_⟩
      · exact fun h => hfind' (hfind1 h)
      · exact fun h => hact' (hact1 h)
      · show (startLoop (processOne w disp x).1 (processOne w disp x).2
            rest).1.now = w.now
        rw [hnow', hnow1]
      · intro d hd
        rcases hdisp' d hd with hmem | hne
        · rcases hdisp1 d hmem with hmem2 | heq
          · exact Or.inl hmem2
          · exact Or.inr (by
              rw [heq]
              exact hids x (List.mem_cons_self x rest))
        · exact Or.inr hne

theorem startLoop_append :
    ∀ (L1 L2 : List TaskRec) (w : World) (disp : List TaskRec),
    startLoop w disp (L1 ++ L2) =
      startLoop (startLoop w disp L1).1 (startLoop w disp L1).2 L2 := by
  intro L1
  induction L1 with
  | nil => intro L2 w disp; rfl
  | cons x rest ih =>
      intro L2 w disp
      show startLoop (processOne w disp x).1 (processOne w disp x).2
          (rest ++ L2) = _
      rw [ih]
      rfl

/-- C4.  A non-template one-time task whose scheduled instant is at or before
the current time when `load_and_start_tasks` picks it up is deleted from the
store and is never dispatched: after the startup pass no record with its id
remains and no dispatched execution unit carries its id — there is no
catch-up run. -/
theorem C4_missed_one_time_deleted (w : World) (ts : List TaskRec)
    (t : TaskRec)
    (hs : w.store = StoreDoc.good (ts.map TaskRec.toRaw))
    (hw : w.writeOk = true)
    (hmem : t ∈ ts)
    (hnd : (ts.map (fun x => x.id)).Nodup)
    (htmp : t.is_template = false)
    (hrep : t.is_repeat = false)
    (hpast : t.scheduled_datetime ≤ w.now)
    (hact : memB t.id w.active = false) :
    (∃ ts',
      (load_and_start_tasks w).1.store =
        StoreDoc.good (ts'.map TaskRec.toRaw) ∧
      findTask ts' t.id = none) ∧
    (∀ d ∈ (load_and_start_tasks w).2, d.id ≠ t.id) := by
  obtain ⟨l1, l2, hsplit⟩ := List.append_of_mem hmem
  subst hsplit
  have hmapsplit : (l1 ++ t :: l2).map (fun x => x.id) =
      l1.map (fun x => x.id) ++ t.id :: l2.map (fun x => x.id) := by simp
  rw [hmapsplit] at hnd
  obtain ⟨hnd1, hnd2, hdisj⟩ := List.nodup_append.mp hnd
  have hids1 : ∀ x ∈ l1, x.id ≠ t.id := by
    intro x hx he
    exact hdisj (List.mem_map_of_mem _ hx)
      (by rw [he]; exact List.mem_cons_self _ _)
  have hids2 : ∀ x ∈ l2, x.id ≠ t.id := by
    intro x hx he
    have hmem2 : t.id ∈ l2.map (fun x => x.id) := by
      rw [← he]
      exact List.mem_map_of_mem _ hx
    exact (List.nodup_cons.mp hnd2).1 hmem2
  have hload : load_tasks w = (w, l1 ++ t :: l2) := load_tasks_good w _ hs hw
  simp only [load_and_start_tasks, hload]
  rw [startLoop_append]
  obtain ⟨curA, hGA, _, hactA, hnowA, hdispA⟩ :=
    startLoop_preserved t.id l1 w [] (l1 ++ t :: l2) ⟨hs, hw⟩ hids1
  have hstep : processOne (startLoop w [] l1).1 (startLoop w [] l1).2 t =
      (remove_task (startLoop w [] l1).1 t.id, (startLoop w [] l1).2) := by
    unfold processOne
    rw [htmp, if_neg (by simp)]
    rw [hactA hact, if_neg (by simp)]
    rw [hrep, if_neg (by simp)]
    rw [if_pos (by rw [hnowA]; exact hpast)]
  have hGB : GoodW (remove_task (startLoop w [] l1).1 t.id)
      (curA.filter (fun e => decide (e.id ≠ t.id))) := by
    constructor
    · rw [remove_task_good (startLoop w [] l1).1 curA t.id hGA.1 hGA.2]
    · rw [remove_task_good (startLoop w [] l1).1 curA t.id hGA.1 hGA.2]
      exact hGA.2
  obtain ⟨curF, hGF, hfindF, _, _, hdispF⟩ :=
    startLoop_preserved t.id l2 (remove_task (startLoop w [] l1).1 t.id)
      (startLoop w [] l1).2 (curA.filter (fun e => decide (e.id ≠ t.id)))
      hGB hids2
  have hloopeq : startLoop (startLoop w [] l1).1 (startLoop w [] l1).2
      (t :: l2) =
      startLoop (remove_task (startLoop w [] l1).1 t.id)
        (startLoop w [] l1).2 l2 := by
    show startLoop
        (processOne (startLoop w [] l1).1 (startLoop w [] l1).2 t).1
        (processOne (startLoop w [] l1).1 (startLoop w [] l1).2 t).2 l2 = _
    rw [hstep]
  rw [hloopeq]
  constructor
  · exact ⟨curF, hGF.1, hfindF (findTask_filter_ne curA t.id)⟩
  · intro d hd
    rcases hdispF d hd with hmem2 | hne
    · rcases hdispA d hmem2 with h0 | hne
      · cases h0
      · exact hne
    · exact hne

def c4task : TaskRec :=
  { id := 6, source_path := "s", destination_path := "d",
    scheduled_datetime := 100, is_repeat := false, is_template := false,
    last_ran := none }

def c4w : World :=
  { store := StoreDoc.good ([c4task].map TaskRec.toRaw), nextId := 0,
    active := [], now := 500, writeOk := true }

theorem C4_witness :
    (load_and_start_tasks c4w).2.all
      (fun d => decide (d.id ≠ c4task.id)) = true := by
  have h := (C4_missed_one_time_deleted c4w [c4task] c4task rfl rfl
    (List.mem_cons_self _ _) (by decide) rfl rfl (by decide) rfl).2
  rw [List.all_eq_true]
  intro d hd
  simpa using h d hd

end Synk
